import Mathlib

/-!
Verification development for the Medical-NLP-Summariser repository.

The repository ships a Next.js frontend (`frontend/app/page.tsx`) and documents
a FastAPI backend (`backend/app.py`) that is not part of the source tree here.
The frontend submit handler is embedded directly from `page.tsx`.  The backend
components (keyword extractor, response-repair layer, fallback classifier,
orchestrator, `/analyze` endpoint) are modelled from the design document
(`spec.md`), since only their specification, README and callers are available.
-/

/-! ## Character utilities

Characters that carry JSON syntax are named, and all comparisons go through
`Char` equality on these named constants. -/

def qMark : Char := Char.ofNat 34

def lBrace : Char := Char.ofNat 123

def rBrace : Char := Char.ofNat 125

def lBrack : Char := Char.ofNat 91

def rBrack : Char := Char.ofNat 93

def commaC : Char := Char.ofNat 44

def colonC : Char := Char.ofNat 58

def dotC : Char := Char.ofNat 46

def dashC : Char := Char.ofNat 45

/-- Lower-case normalisation of a character code: ASCII upper-case letters are
shifted to lower case, every other code is kept.  Working on `Nat` codes keeps
all case-insensitive matching decidable and cheap to evaluate. -/
def lcNat (c : Char) : Nat :=
  if 65 ≤ c.toNat ∧ c.toNat ≤ 90 then c.toNat + 32 else c.toNat

/-- Case-insensitive normal form of a string: its list of lower-cased codes. -/
def normStr (s : String) : List Nat :=
  s.data.map lcNat

/-- Does `hay` start with `needle`? -/
def startsWithL : List Nat → List Nat → Bool
  | _, [] => true
  | [], _ :: _ => false
  | a :: as, b :: bs => (a == b) && startsWithL as bs

/-- Does `hay` contain `needle` as a contiguous run? -/
def containsL (needle : List Nat) : List Nat → Bool
  | [] => startsWithL [] needle
  | c :: t => startsWithL (c :: t) needle || containsL needle t

/-- Does the (normalised) haystack contain any of the given phrases,
case-insensitively? -/
def containsAnyT (hay : List Nat) (phrases : List String) : Bool :=
  phrases.any (fun p => containsL (normStr p) hay)

/-! ## Keyword extractor

Modelled from the spec: the spaCy-based keyword extractor of `backend/app.py`
is absent from the source tree.  §4.1 of the spec describes it as scanning the
transcript for matches against a maintained vocabulary of medical terms,
deduplicating case-insensitively while preserving first-seen order, and capping
the result at a fixed maximum of 20 entries. -/

/-- Modelled from the spec: the curated medical-term vocabulary (symptoms,
treatments, body parts, conditions) maintained by the missing backend; the
entries used in the README's worked example are included. -/
def medicalVocab : List String :=
  ["whiplash injury", "neck pain", "back pain", "physiotherapy",
   "painkillers", "headache", "stiffness", "anxiety"]

/-- Scan over every position of the normalised transcript, left to right,
collecting each vocabulary term that matches starting at that position. -/
def scanKw (vocab : List String) : List Nat → List String
  | [] => []
  | c :: t => vocab.filter (fun v => startsWithL (c :: t) (normStr v)) ++ scanKw vocab t

/-- Deduplicate, keeping the first occurrence of each entry; `seen` holds the
entries already emitted. -/
def dedupFirst : List String → List String → List String
  | [], _ => []
  | x :: xs, seen => if x ∈ seen then dedupFirst xs seen else x :: dedupFirst xs (x :: seen)

/-- Modelled from the spec: `extract(transcript)` of §4.1 — match the
vocabulary against the transcript case-insensitively in first-appearance
order, deduplicate keeping first occurrences, cap at 20 entries. -/
def extractKeywords (s : String) : List String :=
  (dedupFirst (scanKw medicalVocab (normStr s)) []).take 20

/-! ## Frontend submit handler (embedded from `frontend/app/page.tsx`)

`handleSubmit` drives three pieces of React state: `loading`, `result`,
`error`.  The handler is deterministic given the outcome of the single `fetch`
call, so it is embedded as a pure function from that outcome to the final
state triple. -/

/-- The six-field analysis payload as the frontend types it (`ApiResult` in
`page.tsx`): every field optional, plus an optional top-level `error`. -/
structure ApiResult where
  patient_name : Option String
  summary_present : Bool
  keywords : Option (List String)
  sentiment_present : Bool
  intent_present : Bool
  soap_present : Bool
  error : Option String
deriving DecidableEq

/-- JSON body recovered from a non-2xx response (`errorJson` in
`handleSubmit`): optional `error` and `detail` fields. -/
structure ErrJson where
  error : Option String
  detail : Option String
deriving DecidableEq

/-- Outcome of the `fetch` call in `handleSubmit`, as distinguished by the
code: a 2xx response with parsed body, a non-2xx response (status, status
text, body text, and the body's JSON parse when it succeeds), an abort fired
by the 3-minute timeout, a network-level `TypeError`, or any other thrown
error. -/
inductive FetchOutcome
  | ok (data : ApiResult)
  | httpErr (status : Nat) (statusText : String) (bodyText : String) (parsed : Option ErrJson)
  | abortErr
  | networkErr
  | otherErr (msg : String)

/-- Final UI state after `handleSubmit` completes: the `loading`, `result`
and `error` React states. -/
structure UiState where
  loading : Bool
  result : Option ApiResult
  error : Option String
deriving DecidableEq

/-- JavaScript truthiness test used by `data.error`, `errorJson.error || ...`:
an optional string is truthy exactly when present and non-empty. -/
def truthyStr : Option String → Bool
  | none => false
  | some s => !(s == "")

/-- `a || b` on an optional string against a fallback, as JS evaluates it. -/
def orTruthy (a : Option String) (b : String) : String :=
  match a with
  | some s => if s == "" then b else s
  | none => b

/-- The error message computed in the `!res.ok` branch of `handleSubmit`:
start from `HTTP status: statusText`; if the body text parses as JSON use
`errorJson.error || errorJson.detail ||` that fallback, otherwise use the body
text itself when non-empty. -/
def httpErrMsg (status : Nat) (statusText : String) (bodyText : String)
    (parsed : Option ErrJson) : String :=
  let base := "HTTP " ++ toString status ++ ": " ++ statusText
  match parsed with
  | some j => orTruthy j.error (orTruthy j.detail base)
  | none => if bodyText == "" then base else bodyText

/-- Timeout message set for an `AbortError` (3-minute timer). -/
def abortMsg : String :=
  "Request timed out (3 minutes). Backend may be slow. Try a smaller model or Groq API."

/-- Network-failure message set for a `TypeError` mentioning `fetch`. -/
def networkMsg (backendUrl : String) : String :=
  "Cannot connect to backend at " ++ backendUrl ++ ". Make sure the backend is running and accessible."

/-- Embedded from `handleSubmit` in `page.tsx`: the state reached after the
handler finishes, for each fetch outcome.  On a 2xx body whose `error` field
is truthy the handler throws with that message, which the catch block stores
via `setError`; `setResult(null)` runs in every catch; `setLoading(false)`
runs in `finally`. -/
def submitFinalState (backendUrl : String) (o : FetchOutcome) : UiState :=
  match o with
  | .ok data =>
      if truthyStr data.error then
        ⟨false, none, some (orTruthy data.error "")⟩
      else
        ⟨false, some data, none⟩
  | .httpErr st stx body parsed => ⟨false, none, some (httpErrMsg st stx body parsed)⟩
  | .abortErr => ⟨false, none, some abortMsg⟩
  | .networkErr => ⟨false, none, some (networkMsg backendUrl)⟩
  | .otherErr m => ⟨false, none, some m⟩

/-! ## JSON payloads

Modelled from the spec: the response-repair layer of `backend/app.py` (§4.3)
parses the text-generation backend's raw reply as JSON.  The fragment of JSON
the four schemas use — strings, decimal numbers, arrays and objects — is
modelled here, together with a compact renderer and an executable parser.
Numbers carry their decimal representation (mantissa and number of fraction
digits) so that rendering and parsing are exact. -/

inductive JVal
  | jstr (s : String)
  | jnum (m : Int) (e : Nat)
  | jarr (xs : List JVal)
  | jobj (fields : List (String × JVal))

/-- Digit character for `d < 10`. -/
def digitChar (d : Nat) : Char := Char.ofNat (48 + d)

/-- Decimal digit string of a natural number, most-significant first;
`natDigitsStr 0 = []` (padding supplies the leading zero). -/
def natDigitsStr (n : Nat) : List Char :=
  (Nat.digits 10 n).reverse.map digitChar

/-- Left-pad a digit string with zeros up to length `k`. -/
def padZeros (l : List Char) (k : Nat) : List Char :=
  List.replicate (k - l.length) (digitChar 0) ++ l

/-- Render `n / 10^e` as an unsigned decimal literal: at least `e + 1`
digits, with a point before the last `e` of them when `e > 0`. -/
def renderNumNat (n : Nat) (e : Nat) : List Char :=
  let ds := padZeros (natDigitsStr n) (e + 1)
  if e = 0 then ds else ds.take (ds.length - e) ++ dotC :: ds.drop (ds.length - e)

/-- Render `m / 10^e` as a signed decimal literal. -/
def renderNum (m : Int) (e : Nat) : List Char :=
  (if m < 0 then [dashC] else []) ++ renderNumNat m.natAbs e

mutual

/-- Compact JSON rendering of a value. -/
def renderVal : JVal → List Char
  | JVal.jstr s => qMark :: (s.data ++ [qMark])
  | JVal.jnum m e => renderNum m e
  | JVal.jarr xs => lBrack :: (renderItems xs ++ [rBrack])
  | JVal.jobj fs => lBrace :: (renderFields fs ++ [rBrace])

/-- Comma-separated rendering of array items. -/
def renderItems : List JVal → List Char
  | [] => []
  | [x] => renderVal x
  | x :: y :: t => renderVal x ++ commaC :: renderItems (y :: t)

/-- Comma-separated rendering of object members. -/
def renderFields : List (String × JVal) → List Char
  | [] => []
  | [(k, v)] => qMark :: k.data ++ qMark :: colonC :: renderVal v
  | (k, v) :: f :: t =>
      (qMark :: k.data ++ qMark :: colonC :: renderVal v) ++ commaC :: renderFields (f :: t)

end

/-- Read the body of a string literal up to its closing quote (the schemas'
payload strings contain no quote, so no escape handling is modelled). -/
def lexStr : List Char → Option (List Char × List Char)
  | [] => none
  | c :: cs =>
      if c = qMark then some ([], cs)
      else
        match lexStr cs with
        | some (s, r) => some (c :: s, r)
        | none => none

/-- Split a maximal run of decimal digits off the front of the input. -/
def lexDigits : List Char → List Char × List Char
  | [] => ([], [])
  | c :: cs =>
      if c.isDigit then
        match lexDigits cs with
        | (d, r) => (c :: d, r)
      else ([], c :: cs)

/-- Numeric value of a digit string, most-significant first. -/
def digitsVal (l : List Char) : Nat :=
  l.foldl (fun a c => 10 * a + (c.toNat - 48)) 0

/-- Parse an unsigned decimal literal into mantissa and fraction length. -/
def parseUnsigned (input : List Char) : Option ((Int × Nat) × List Char) :=
  match lexDigits input with
  | (ip, r1) =>
    if ip.isEmpty then none
    else
      match r1 with
      | c :: r2 =>
          if c = dotC then
            match lexDigits r2 with
            | (fp, r3) =>
              if fp.isEmpty then none
              else some ((Int.ofNat (digitsVal ip * 10 ^ fp.length + digitsVal fp), fp.length), r3)
          else some ((Int.ofNat (digitsVal ip), 0), c :: r2)
      | [] => some ((Int.ofNat (digitsVal ip), 0), [])

/-- Parse a signed decimal literal as a JSON number. -/
def parseNumber (input : List Char) : Option (JVal × List Char) :=
  match input with
  | [] => none
  | c :: cs =>
      if c = dashC then
        match parseUnsigned cs with
        | some ((m, e), r) => some (JVal.jnum (-m) e, r)
        | none => none
      else
        match parseUnsigned (c :: cs) with
        | some ((m, e), r) => some (JVal.jnum m e, r)
        | none => none

mutual

/-- Fuel-indexed JSON value parser; returns the value and the unconsumed
rest of the input. -/
def parseVal : Nat → List Char → Option (JVal × List Char)
  | 0, _ => none
  | _ + 1, [] => none
  | f + 1, c :: cs =>
      if c = qMark then
        match lexStr cs with
        | some (s, r) => some (JVal.jstr (String.mk s), r)
        | none => none
      else if c = lBrace then
        match cs with
        | [] => none
        | c2 :: r2 =>
            if c2 = rBrace then some (JVal.jobj [], r2)
            else
              match parseFields f (c2 :: r2) with
              | some (fs, r) => some (JVal.jobj fs, r)
              | none => none
      else if c = lBrack then
        match cs with
        | [] => none
        | c2 :: r2 =>
            if c2 = rBrack then some (JVal.jarr [], r2)
            else
              match parseItems f (c2 :: r2) with
              | some (xs, r) => some (JVal.jarr xs, r)
              | none => none
      else parseNumber (c :: cs)

/-- Parse one or more comma-separated items followed by a closing bracket. -/
def parseItems : Nat → List Char → Option (List JVal × List Char)
  | 0, _ => none
  | f + 1, input =>
      match parseVal f input with
      | some (v, c :: r) =>
          if c = commaC then
            match parseItems f r with
            | some (vs, r2) => some (v :: vs, r2)
            | none => none
          else if c = rBrack then some ([v], r)
          else none
      | _ => none

/-- Parse one or more comma-separated members followed by a closing brace. -/
def parseFields : Nat → List Char → Option (List (String × JVal) × List Char)
  | 0, _ => none
  | f + 1, input =>
      match input with
      | [] => none
      | c :: cs =>
          if c = qMark then
            match lexStr cs with
            | some (k, c2 :: r2) =>
                if c2 = colonC then
                  match parseVal f r2 with
                  | some (v, c3 :: r3) =>
                      if c3 = commaC then
                        match parseFields f r3 with
                        | some (fs, r4) => some ((String.mk k, v) :: fs, r4)
                        | none => none
                      else if c3 = rBrace then some ([(String.mk k, v)], r3)
                      else none
                  | _ => none
                else none
            | _ => none
          else none

end

mutual

/-- Node-count measure driving the fuel bound of the parser. -/
def sizeV : JVal → Nat
  | JVal.jstr _ => 1
  | JVal.jnum _ _ => 1
  | JVal.jarr xs => 1 + sizeL xs
  | JVal.jobj fs => 1 + sizeF fs

/-- Measure for item lists. -/
def sizeL : List JVal → Nat
  | [] => 0
  | x :: t => 1 + sizeV x + sizeL t

/-- Measure for member lists. -/
def sizeF : List (String × JVal) → Nat
  | [] => 0
  | p :: t => 1 + sizeV p.2 + sizeF t

end

/-- A payload string is renderable without escapes when it contains no
quote character. -/
def okStr (s : String) : Bool :=
  s.data.all (fun c => !(c = qMark))

mutual

/-- Well-formedness of a value for exact rendering: every string (and every
object key) is quote-free. -/
def wfV : JVal → Bool
  | JVal.jstr s => okStr s
  | JVal.jnum _ _ => true
  | JVal.jarr xs => wfL xs
  | JVal.jobj fs => wfF fs

/-- Well-formedness for item lists. -/
def wfL : List JVal → Bool
  | [] => true
  | x :: t => wfV x && wfL t

/-- Well-formedness for member lists. -/
def wfF : List (String × JVal) → Bool
  | [] => true
  | p :: t => okStr p.1 && wfV p.2 && wfF t

end

/-- The text following a rendered value must not extend a numeric literal:
its first character, if any, is neither a digit nor a decimal point. -/
def headSafe : List Char → Bool
  | [] => true
  | c :: _ => !c.isDigit && !(c = dotC)

/-! ## Schemas and sentinels

Modelled from the spec (§4.2): the four fixed schemas, with sentinel values
"Unknown" for scalar fields and the empty list for array/mapping fields. -/

/-- The `summary` schema. -/
structure Summary where
  Patient_Name : String
  Symptoms : List String
  Diagnosis : String
  Treatment : List String
  Current_Status : String
  Prognosis : String
deriving DecidableEq

/-- The `sentiment` schema; `Confidence` is modelled as a rational. -/
structure SentimentObj where
  Sentiment : String
  Confidence : Rat
deriving DecidableEq

/-- The `intent` schema. -/
structure IntentObj where
  Intent : String
  Confidence : Rat
deriving DecidableEq

/-- The `soap_note` schema: each section maps clinically named sub-fields to
text. -/
structure SoapNote where
  Subjective : List (String × String)
  Objective : List (String × String)
  Assessment : List (String × String)
  Plan : List (String × String)
deriving DecidableEq

/-- Fully sentinel-filled summary. -/
def sentinelSummary : Summary :=
  ⟨"Unknown", [], "Unknown", [], "Unknown", "Unknown"⟩

/-- Fully sentinel-filled SOAP note (every section an empty mapping). -/
def sentinelSoap : SoapNote :=
  ⟨[], [], [], []⟩

/-- Modelled from the spec (§4.4): the fixed confidence constant attached to
fallback results, lower than any genuine model confidence. -/
def fallbackConfidence : Rat := 1/2

/-! ## Response repair layer

Modelled from the spec (§4.3): strip formatting wrappers, locate the JSON
payload, parse it, validate against the kind's schema filling missing keys
with sentinels, coerce confidence values and clip them to `[0,1]`.  Locating
the first balanced span is realised by scanning to the first `{`/`[` and
parsing exactly one JSON value from there (which also skips code-fence
markers, since they contain no brace); trailing commentary is the unconsumed
rest, which is discarded. -/

/-- First field value bound to `key`, if any. -/
def jLookup : List (String × JVal) → String → Option JVal
  | [], _ => none
  | (k, v) :: rest, key => if k = key then some v else jLookup rest key

/-- A scalar string field: sentinel "Unknown" when missing or not a string. -/
def jStr (fs : List (String × JVal)) (k : String) : String :=
  match jLookup fs k with
  | some (JVal.jstr s) => s
  | _ => "Unknown"

/-- A string-list field: non-string entries are dropped; sentinel `[]` when
missing or not an array. -/
def jStrList (fs : List (String × JVal)) (k : String) : List String :=
  match jLookup fs k with
  | some (JVal.jarr xs) =>
      xs.filterMap (fun v =>
        match v with
        | JVal.jstr s => some s
        | _ => none)
  | _ => []

/-- A mapping field (SOAP section): sub-fields with string values; sentinel
`[]` when missing or not an object. -/
def jMap (fs : List (String × JVal)) (k : String) : List (String × String) :=
  match jLookup fs k with
  | some (JVal.jobj sub) =>
      sub.filterMap (fun p =>
        match p.2 with
        | JVal.jstr s => some (p.1, s)
        | _ => none)
  | _ => []

/-- Clip a coerced confidence value into `[0,1]`. -/
def clipConf (q : Rat) : Rat := max 0 (min 1 q)

/-- Rational value of a decimal literal `m / 10^e`. -/
def decToRat (m : Int) (e : Nat) : Rat := (m : Rat) / ((10 : Rat) ^ e)

/-- A confidence field: a JSON number, or a stringified number, is coerced
and clipped to `[0,1]`; anything else yields the fallback constant. -/
def jConf (fs : List (String × JVal)) (k : String) : Rat :=
  match jLookup fs k with
  | some (JVal.jnum m e) => clipConf (decToRat m e)
  | some (JVal.jstr s) =>
      match parseNumber s.data with
      | some (JVal.jnum m e, []) => clipConf (decToRat m e)
      | _ => fallbackConfidence
  | _ => fallbackConfidence

/-- Is the next character a closing brace or bracket? -/
def closerNext : List Char → Bool
  | c2 :: _ => (c2 == rBrace) || (c2 == rBrack)
  | [] => false

/-- Second repair pass for common artifacts: single quotes become double
quotes and a comma directly before a closing brace/bracket is dropped. -/
def fixArtifacts : List Char → List Char
  | [] => []
  | c :: cs =>
      if (c == commaC) && closerNext cs then fixArtifacts cs
      else (if c = Char.ofNat 39 then qMark else c) :: fixArtifacts cs

/-- Locate the JSON payload in the raw backend reply and parse it; on parse
failure retry once on the artifact-fixed text. -/
def locateParse (raw : String) : Option JVal :=
  let cs := raw.data.dropWhile (fun c => !(c = lBrace || c = lBrack))
  match parseVal (cs.length + 1) cs with
  | some (v, _) => some v
  | none =>
      let cs2 := fixArtifacts cs
      match parseVal (cs2.length + 1) cs2 with
      | some (v, _) => some v
      | none => none

/-- Validate parsed object members against the `summary` schema. -/
def validateSummary (fs : List (String × JVal)) : Summary :=
  ⟨jStr fs "Patient_Name", jStrList fs "Symptoms", jStr fs "Diagnosis",
   jStrList fs "Treatment", jStr fs "Current_Status", jStr fs "Prognosis"⟩

/-- Validate parsed object members against the `sentiment` schema. -/
def validateSentiment (fs : List (String × JVal)) : SentimentObj :=
  ⟨jStr fs "Sentiment", jConf fs "Confidence"⟩

/-- Validate parsed object members against the `intent` schema. -/
def validateIntent (fs : List (String × JVal)) : IntentObj :=
  ⟨jStr fs "Intent", jConf fs "Confidence"⟩

/-- Validate parsed object members against the `soap_note` schema. -/
def validateSoap (fs : List (String × JVal)) : SoapNote :=
  ⟨jMap fs "Subjective", jMap fs "Objective", jMap fs "Assessment", jMap fs "Plan"⟩

/-- `repair(summary, raw)`: payload plus validity flag. -/
def repairSummary (raw : String) : Summary × Bool :=
  match locateParse raw with
  | some (JVal.jobj fs) => (validateSummary fs, true)
  | _ => (sentinelSummary, false)

/-- `repair(sentiment, raw)`. -/
def repairSentiment (raw : String) : SentimentObj × Bool :=
  match locateParse raw with
  | some (JVal.jobj fs) => (validateSentiment fs, true)
  | _ => (⟨"Neutral", fallbackConfidence⟩, false)

/-- `repair(intent, raw)`. -/
def repairIntent (raw : String) : IntentObj × Bool :=
  match locateParse raw with
  | some (JVal.jobj fs) => (validateIntent fs, true)
  | _ => (⟨"Reporting symptoms", fallbackConfidence⟩, false)

/-- `repair(soap_note, raw)`. -/
def repairSoap (raw : String) : SoapNote × Bool :=
  match locateParse raw with
  | some (JVal.jobj fs) => (validateSoap fs, true)
  | _ => (sentinelSoap, false)

/-! ## Fallback classifier

Modelled from the spec (§4.4): rule-based keyword matching over the
transcript, case-insensitive, used only when the backend call failed, timed
out, or the repair layer declared the output invalid.  It always succeeds and
stamps the fixed fallback confidence. -/

/-- Fallback sentiment classification. -/
def fallbackSentiment (t : String) : SentimentObj :=
  let n := normStr t
  ⟨if containsAnyT n ["worried", "scared", "anxious"] then "Anxious"
   else if containsAnyT n ["better", "relieved", "reassured"] then "Reassured"
   else "Neutral",
   fallbackConfidence⟩

/-- Fallback intent classification (default "Reporting symptoms"). -/
def fallbackIntent (t : String) : IntentObj :=
  let n := normStr t
  ⟨if containsAnyT n ["better", "improving", "recovered"] then "Reporting recovery status"
   else if containsAnyT n ["worried", "scared"] then "Expressing concern"
   else "Reporting symptoms",
   fallbackConfidence⟩

/-! ## Orchestrator

Modelled from the spec (§3, §4.5): each task yields exactly one tagged
`ExtractionResult`; sentiment/intent fall back on failure, summary/soap fail
carrying the sentinel-filled schema; the soap task receives the settled
summary payload as context. -/

/-- Tagged outcome of one extraction task. -/
inductive ExtractionResult (α : Type)
  | Success (payload : α)
  | FallbackUsed (payload : α) (reason : String)
  | Failed (reason : String)

/-- Payload of a settled result, with the sentinel taken on `Failed`. -/
def ExtractionResult.payloadOr {α : Type} (sentinel : α) : ExtractionResult α → α
  | .Success p => p
  | .FallbackUsed p _ => p
  | .Failed _ => sentinel

/-- One backend environment for a request: the raw text each task's backend
call would return, or `none` when that call is unreachable, errors, or times
out.  The soap call depends on the settled summary payload it receives as
context. -/
structure Env where
  summaryRaw : Option String
  sentimentRaw : Option String
  intentRaw : Option String
  soapRaw : Summary → Option String

/-- The environment of a request during which the backend is entirely
unreachable: every call fails. -/
def failEnv : Env :=
  ⟨none, none, none, fun _ => none⟩

/-- Summary task: on backend failure or invalid repair, `Failed` (the
aggregate will take the sentinel-filled schema); no fallback classifier. -/
def runSummary (env : Env) : ExtractionResult Summary :=
  match env.summaryRaw with
  | none => .Failed "backend call failed or timed out"
  | some raw =>
      match repairSummary raw with
      | (p, true) => .Success p
      | (_, false) => .Failed "invalid model output"

/-- Sentiment task: on failure or invalid repair the fallback classifier is
invoked, so the outcome is never `Failed`. -/
def runSentiment (env : Env) (t : String) : ExtractionResult SentimentObj :=
  match env.sentimentRaw with
  | none => .FallbackUsed (fallbackSentiment t) "backend call failed or timed out"
  | some raw =>
      match repairSentiment raw with
      | (p, true) => .Success p
      | (_, false) => .FallbackUsed (fallbackSentiment t) "invalid model output"

/-- Intent task: same fallback discipline as sentiment. -/
def runIntent (env : Env) (t : String) : ExtractionResult IntentObj :=
  match env.intentRaw with
  | none => .FallbackUsed (fallbackIntent t) "backend call failed or timed out"
  | some raw =>
      match repairIntent raw with
      | (p, true) => .Success p
      | (_, false) => .FallbackUsed (fallbackIntent t) "invalid model output"

/-- Soap task, issued with the settled summary payload as context; same
failure discipline as summary. -/
def runSoap (env : Env) (ctx : Summary) : ExtractionResult SoapNote :=
  match env.soapRaw ctx with
  | none => .Failed "backend call failed or timed out"
  | some raw =>
      match repairSoap raw with
      | (p, true) => .Success p
      | (_, false) => .Failed "invalid model output"

/-- The aggregate response: all six fields are total, so every constructed
response carries all of them. -/
structure AnalysisResponse where
  patient_name : String
  summary : Summary
  keywords : List String
  sentiment : SentimentObj
  intent : IntentObj
  soap_note : SoapNote
deriving DecidableEq

/-- Modelled from the spec (§4.5 step 7): merge the four settled extraction
results and the keyword list into the aggregate; `Failed` outcomes contribute
their sentinel-filled schema. -/
def analyze (t : String) (pname : Option String) (env : Env) : AnalysisResponse :=
  let sumPayload := (runSummary env).payloadOr sentinelSummary
  { patient_name := pname.getD sumPayload.Patient_Name
    summary := sumPayload
    keywords := extractKeywords t
    sentiment := (runSentiment env t).payloadOr (fallbackSentiment t)
    intent := (runIntent env t).payloadOr (fallbackIntent t)
    soap_note := (runSoap env sumPayload).payloadOr sentinelSoap }

/-- An `/analyze` request body: `transcript` required, `patient_name`
optional. -/
structure AnalyzeRequest where
  transcript : Option String
  patient_name : Option String

/-- Modelled from the spec (§6, §7): the `/analyze` endpoint — an empty or
missing transcript is rejected with a 400 error before orchestration begins;
everything else returns 200 with the aggregate. -/
def analyzeEndpoint (req : AnalyzeRequest) (env : Env) : Nat × Except String AnalysisResponse :=
  match req.transcript with
  | none => (400, Except.error "Transcript is required and must be non-empty.")
  | some t =>
      if t = "" then (400, Except.error "Transcript is required and must be non-empty.")
      else (200, Except.ok (analyze t req.patient_name env))

/-! ## Task-graph scheduler

Modelled from the spec (§4.5, §5): per request the orchestrator launches the
keyword, summary, sentiment and intent tasks immediately and gates the soap
task on the settled (success, fallback or failed) summary result.  Executions
are arbitrary interleavings of task starts and settlements that respect the
dependency; a task may start once all its dependencies have settled and may
settle once after it has started. -/

/-- The five per-request tasks. -/
inductive OrchTask
  | keywords
  | summary
  | sentiment
  | intent
  | soap
deriving DecidableEq

/-- The dependency edges of the task graph: only `soap` waits, and only for
`summary`. -/
def orchDeps : OrchTask → List OrchTask
  | OrchTask.soap => [OrchTask.summary]
  | _ => []

/-- Observable scheduling events. -/
inductive Event
  | start (t : OrchTask)
  | settle (t : OrchTask)
deriving DecidableEq

/-- Scheduler state: which tasks have been issued and which have settled. -/
structure SchedState where
  started : OrchTask → Bool
  settled : OrchTask → Bool

/-- The state before any task is issued. -/
def initState : SchedState :=
  ⟨fun _ => false, fun _ => false⟩

/-- A task may start when it has not started yet and all its dependencies
have settled. -/
def canStart (s : SchedState) (t : OrchTask) : Bool :=
  !s.started t && (orchDeps t).all (fun d => s.settled d)

/-- A task may settle when it has started and has not settled yet. -/
def canSettle (s : SchedState) (t : OrchTask) : Bool :=
  s.started t && !s.settled t

/-- Mark a task started. -/
def doStart (s : SchedState) (t : OrchTask) : SchedState :=
  ⟨fun u => if u = t then true else s.started u, s.settled⟩

/-- Mark a task settled. -/
def doSettle (s : SchedState) (t : OrchTask) : SchedState :=
  ⟨s.started, fun u => if u = t then true else s.settled u⟩

/-- `Exec tr s`: from the initial state, the event sequence `tr` is a valid
execution of the orchestrator's task graph and leads to state `s`. -/
inductive Exec : List Event → SchedState → Prop
  | nil : Exec [] initState
  | stepStart {tr s t} : Exec tr s → canStart s t = true →
      Exec (tr ++ [Event.start t]) (doStart s t)
  | stepSettle {tr s t} : Exec tr s → canSettle s t = true →
      Exec (tr ++ [Event.settle t]) (doSettle s t)

/-- Head-of-rest condition sufficient for the digit lexer. -/
def headNoDigit : List Char → Bool
  | [] => true
  | c :: _ => !c.isDigit


/-- Encoding of a `Summary` payload as its JSON object. -/
def encodeSummary (p : Summary) : JVal :=
  JVal.jobj [("Patient_Name", JVal.jstr p.Patient_Name),
             ("Symptoms", JVal.jarr (p.Symptoms.map JVal.jstr)),
             ("Diagnosis", JVal.jstr p.Diagnosis),
             ("Treatment", JVal.jarr (p.Treatment.map JVal.jstr)),
             ("Current_Status", JVal.jstr p.Current_Status),
             ("Prognosis", JVal.jstr p.Prognosis)]

/-- Encoding of a `SentimentObj` whose confidence is the decimal `m / 10^e`. -/
def encodeSentiment (p : SentimentObj) (m : Int) (e : Nat) : JVal :=
  JVal.jobj [("Sentiment", JVal.jstr p.Sentiment), ("Confidence", JVal.jnum m e)]

/-- Encoding of an `IntentObj` whose confidence is the decimal `m / 10^e`. -/
def encodeIntent (p : IntentObj) (m : Int) (e : Nat) : JVal :=
  JVal.jobj [("Intent", JVal.jstr p.Intent), ("Confidence", JVal.jnum m e)]

/-- Encoding of one SOAP section (a mapping of sub-fields to text). -/
def encodeSection (m : List (String × String)) : JVal :=
  JVal.jobj (m.map (fun q => (q.1, JVal.jstr q.2)))

/-- Encoding of a `SoapNote` payload. -/
def encodeSoap (p : SoapNote) : JVal :=
  JVal.jobj [("Subjective", encodeSection p.Subjective),
             ("Objective", encodeSection p.Objective),
             ("Assessment", encodeSection p.Assessment),
             ("Plan", encodeSection p.Plan)]


/-- A complete execution in which summary settles first and the independent
tasks start in the order summary, sentiment, intent, keywords. -/
def traceA : List Event :=
  [Event.start OrchTask.summary, Event.start OrchTask.sentiment,
   Event.start OrchTask.intent, Event.start OrchTask.keywords,
   Event.settle OrchTask.summary, Event.settle OrchTask.sentiment,
   Event.settle OrchTask.intent, Event.settle OrchTask.keywords,
   Event.start OrchTask.soap, Event.settle OrchTask.soap]

/-- A complete execution with the independent tasks started and settled in
the reverse order. -/
def traceB : List Event :=
  [Event.start OrchTask.keywords, Event.start OrchTask.intent,
   Event.start OrchTask.sentiment, Event.start OrchTask.summary,
   Event.settle OrchTask.keywords, Event.settle OrchTask.intent,
   Event.settle OrchTask.sentiment, Event.settle OrchTask.summary,
   Event.start OrchTask.soap, Event.settle OrchTask.soap]


/-! ## Claim theorems -/

/-- C9: the frontend submit handler treats a 2xx response whose JSON body
contains a non-empty top-level `error` field as a failure — it throws with
that message, the catch block displays it, and the body is never stored as a
result. -/
theorem frontend_error_body_rejected (url : String) (data : ApiResult) (s : String)
    (h1 : data.error = some s) (h2 : s ≠ "") :
    submitFinalState url (FetchOutcome.ok data) =
      ⟨false, none, some s⟩ := by
  simp only [submitFinalState, truthyStr, h1, orTruthy]
  rw [if_pos, if_neg]
  · simp [h2]
  · simp [h2]

/-- Witness for C9 at a concrete error-bearing 2xx body. -/
theorem frontend_error_body_rejected_witness :
    submitFinalState "http://localhost:8000"
        (FetchOutcome.ok ⟨none, false, none, false, false, false, some "No LLM configured"⟩) =
      ⟨false, none, some "No LLM configured"⟩ :=
  frontend_error_body_rejected "http://localhost:8000" _ "No LLM configured" rfl (by decide)

/-- C10: after every completed run of the frontend submit handler the
`loading` flag is cleared, and `result`/`error` are mutually exclusive: a 2xx
body without a truthy `error` field is stored with `error = null`, and every
failure (non-2xx, error-bearing body, abort, network failure, other throw)
stores an error message and resets `result` to null. -/
theorem frontend_submit_state_invariant (url : String) (o : FetchOutcome) :
    (submitFinalState url o).loading = false ∧
    (submitFinalState url o).result.isSome = (submitFinalState url o).error.isNone ∧
    (match o with
     | FetchOutcome.ok d =>
        if truthyStr d.error then
          (submitFinalState url o).result = none ∧
          (submitFinalState url o).error = some (orTruthy d.error "")
        else
          (submitFinalState url o).result = some d ∧
          (submitFinalState url o).error = none
     | FetchOutcome.httpErr st stx body parsed =>
        (submitFinalState url o).result = none ∧
        (submitFinalState url o).error = some (httpErrMsg st stx body parsed)
     | FetchOutcome.abortErr =>
        (submitFinalState url o).result = none ∧
        (submitFinalState url o).error = some abortMsg
     | FetchOutcome.networkErr =>
        (submitFinalState url o).result = none ∧
        (submitFinalState url o).error = some (networkMsg url)
     | FetchOutcome.otherErr m =>
        (submitFinalState url o).result = none ∧
        (submitFinalState url o).error = some m) := by
  cases o with
  | ok d =>
      by_cases h : truthyStr d.error = true
      · simp [submitFinalState, h]
      · simp only [Bool.not_eq_true] at h
        simp [submitFinalState, h]
  | httpErr st stx body parsed => simp [submitFinalState]
  | abortErr => simp [submitFinalState]
  | networkErr => simp [submitFinalState]
  | otherErr m => simp [submitFinalState]

/-- C4: the `/analyze` endpoint fails — a non-2xx status with an `{error}`
body — exactly when the transcript is missing or empty, and that rejection is
independent of the backend environment (it happens before any orchestration). -/
theorem analyze_rejects_exactly_empty (req : AnalyzeRequest) (env : Env) :
    ((¬ (200 ≤ (analyzeEndpoint req env).1 ∧ (analyzeEndpoint req env).1 < 300)) ∧
       (∃ msg, (analyzeEndpoint req env).2 = Except.error msg)
     ↔ (req.transcript = none ∨ req.transcript = some "")) ∧
    ((req.transcript = none ∨ req.transcript = some "") →
      ∀ env2, analyzeEndpoint req env = analyzeEndpoint req env2) := by
  cases h : req.transcript with
  | none => simp [analyzeEndpoint, h]
  | some t =>
      by_cases ht : t = ""
      · subst ht
        simp [analyzeEndpoint, h]
      · simp [analyzeEndpoint, h, ht]

/-- Witness for C4 at the empty transcript. -/
theorem analyze_rejects_exactly_empty_witness :
    (((¬ (200 ≤ (analyzeEndpoint ⟨some "", some "Janet Jones"⟩ failEnv).1 ∧
           (analyzeEndpoint ⟨some "", some "Janet Jones"⟩ failEnv).1 < 300)) ∧
       (∃ msg, (analyzeEndpoint ⟨some "", some "Janet Jones"⟩ failEnv).2 = Except.error msg)
     ↔ ((⟨some "", some "Janet Jones"⟩ : AnalyzeRequest).transcript = none ∨
        (⟨some "", some "Janet Jones"⟩ : AnalyzeRequest).transcript = some "")) ∧
    (((⟨some "", some "Janet Jones"⟩ : AnalyzeRequest).transcript = none ∨
      (⟨some "", some "Janet Jones"⟩ : AnalyzeRequest).transcript = some "") →
      ∀ env2, analyzeEndpoint ⟨some "", some "Janet Jones"⟩ failEnv =
        analyzeEndpoint ⟨some "", some "Janet Jones"⟩ env2)) :=
  analyze_rejects_exactly_empty ⟨some "", some "Janet Jones"⟩ failEnv

/-- C1: for every valid non-empty transcript the endpoint returns status 200
with an `AnalysisResponse`; the `AnalysisResponse` structure makes all six
top-level fields total, so every returned response carries `patient_name`,
`summary`, `keywords`, `sentiment`, `intent` and `soap_note`, none missing,
and the aggregation `analyze` is a total function that never fails. -/
theorem analyze_response_total (req : AnalyzeRequest) (env : Env) (t : String)
    (h1 : req.transcript = some t) (h2 : t ≠ "") :
    analyzeEndpoint req env = (200, Except.ok (analyze t req.patient_name env)) := by
  simp [analyzeEndpoint, h1, h2]

/-- Witness for C1 at a concrete non-empty transcript. -/
theorem analyze_response_total_witness :
    analyzeEndpoint ⟨some "I have neck pain", none⟩ failEnv =
      (200, Except.ok (analyze "I have neck pain" none failEnv)) :=
  analyze_response_total ⟨some "I have neck pain", none⟩ failEnv "I have neck pain" rfl (by decide)

/-- C2: when every backend call fails or times out, sentiment and intent are
produced by the fallback classifier as `FallbackUsed` (never `Failed`) with
the fixed fallback confidence, summary and soap resolve to the fully
sentinel-filled schemas, and the keyword list still comes from the local
extractor. -/
theorem backend_down_degrades (t : String) (pn : Option String) (h : t ≠ "") :
    analyzeEndpoint ⟨some t, pn⟩ failEnv =
      (200, Except.ok
        { patient_name := pn.getD "Unknown"
          summary := sentinelSummary
          keywords := extractKeywords t
          sentiment := fallbackSentiment t
          intent := fallbackIntent t
          soap_note := sentinelSoap }) ∧
    runSentiment failEnv t =
      ExtractionResult.FallbackUsed (fallbackSentiment t) "backend call failed or timed out" ∧
    runIntent failEnv t =
      ExtractionResult.FallbackUsed (fallbackIntent t) "backend call failed or timed out" ∧
    (fallbackSentiment t).Confidence = fallbackConfidence ∧
    (fallbackIntent t).Confidence = fallbackConfidence := by
  refine ⟨?_, rfl, rfl, rfl, rfl⟩
  simp [analyzeEndpoint, h]
  rfl

/-- Witness for C2 at a concrete transcript. -/
theorem backend_down_degrades_witness :
    analyzeEndpoint ⟨some "I am worried about my neck pain", none⟩ failEnv =
      (200, Except.ok
        { patient_name := (none : Option String).getD "Unknown"
          summary := sentinelSummary
          keywords := extractKeywords "I am worried about my neck pain"
          sentiment := fallbackSentiment "I am worried about my neck pain"
          intent := fallbackIntent "I am worried about my neck pain"
          soap_note := sentinelSoap }) ∧
    runSentiment failEnv "I am worried about my neck pain" =
      ExtractionResult.FallbackUsed (fallbackSentiment "I am worried about my neck pain")
        "backend call failed or timed out" ∧
    runIntent failEnv "I am worried about my neck pain" =
      ExtractionResult.FallbackUsed (fallbackIntent "I am worried about my neck pain")
        "backend call failed or timed out" ∧
    (fallbackSentiment "I am worried about my neck pain").Confidence = fallbackConfidence ∧
    (fallbackIntent "I am worried about my neck pain").Confidence = fallbackConfidence :=
  backend_down_degrades "I am worried about my neck pain" none (by decide)

/-! ### Keyword extractor lemmas -/

/-- `dedupFirst` emits a duplicate-free list avoiding everything in `seen`. -/
theorem dedupFirst_nodup : ∀ (l seen : List String),
    (dedupFirst l seen).Nodup ∧ ∀ x ∈ dedupFirst l seen, x ∉ seen := by
  intro l
  induction l with
  | nil => intro seen; simp [dedupFirst]
  | cons x xs ih =>
      intro seen
      by_cases h : x ∈ seen
      · simpa [dedupFirst, h] using ih seen
      · simp only [dedupFirst, h, if_neg, not_false_iff]
        constructor
        · refine List.nodup_cons.mpr ⟨?_, (ih (x :: seen)).1⟩
          intro hx
          exact ((ih (x :: seen)).2 x hx) (List.mem_cons_self x seen)
        · intro y hy
          rcases List.mem_cons.mp hy with rfl | hy2
          · exact h
          · intro hseen
            exact ((ih (x :: seen)).2 y hy2) (List.mem_cons_of_mem x hseen)

/-- Everything `dedupFirst` emits comes from its input. -/
theorem dedupFirst_subset : ∀ (l seen : List String) (x : String),
    x ∈ dedupFirst l seen → x ∈ l := by
  intro l
  induction l with
  | nil => intro seen x hx; simp [dedupFirst] at hx
  | cons y ys ih =>
      intro seen x hx
      by_cases h : y ∈ seen
      · simp only [dedupFirst, h, if_pos] at hx
        exact List.mem_cons_of_mem y (ih seen x hx)
      · simp only [dedupFirst, h, if_neg, not_false_iff] at hx
        rcases List.mem_cons.mp hx with rfl | hx2
        · exact List.mem_cons_self x ys
        · exact List.mem_cons_of_mem y (ih (y :: seen) x hx2)

/-- Every keyword the scan emits is a vocabulary entry. -/
theorem scanKw_subset (v : List String) : ∀ (cs : List Nat) (x : String),
    x ∈ scanKw v cs → x ∈ v := by
  intro cs
  induction cs with
  | nil => intro x hx; simp [scanKw] at hx
  | cons c t ih =>
      intro x hx
      simp only [scanKw] at hx
      rcases List.mem_append.mp hx with h1 | h2
      · exact List.mem_of_mem_filter h1
      · exact ih x h2

/-- C7: the keyword extractor is a total deterministic function whose output
never exceeds 20 entries, consists of matched vocabulary terms, is
duplicate-free even up to case-insensitive normalisation, and on the spec's
scenario transcript yields exactly the four expected terms in first-appearance
order. -/
theorem keyword_extractor_contract (t : String) :
    (extractKeywords t).length ≤ 20 ∧
    (∀ k ∈ extractKeywords t, k ∈ medicalVocab) ∧
    ((extractKeywords t).map normStr).Nodup ∧
    extractKeywords
        "The patient reported a whiplash injury and neck pain; treatment was physiotherapy and painkillers."
      = ["whiplash injury", "neck pain", "physiotherapy", "painkillers"] := by
  have hsub : ∀ k ∈ extractKeywords t, k ∈ medicalVocab := by
    intro k hk
    have h1 : k ∈ dedupFirst (scanKw medicalVocab (normStr t)) [] :=
      List.mem_of_mem_take hk
    exact scanKw_subset medicalVocab (normStr t) k (dedupFirst_subset _ _ k h1)
  refine ⟨?_, hsub, ?_, by decide⟩
  · simp [extractKeywords]
  · have hnd : (extractKeywords t).Nodup :=
      ((dedupFirst_nodup (scanKw medicalVocab (normStr t)) []).1).sublist
        (List.take_sublist 20 _)
    refine hnd.map_on ?_
    intro x hx y hy hxy
    have hinj : ∀ x ∈ medicalVocab, ∀ y ∈ medicalVocab, normStr x = normStr y → x = y := by
      decide
    exact hinj x (hsub x hx) y (hsub y hy) hxy

/-! ### Confidence bounds -/

/-- The fallback confidence constant lies in the unit interval. -/
theorem fallbackConfidence_mem : 0 ≤ fallbackConfidence ∧ fallbackConfidence ≤ 1 := by
  norm_num [fallbackConfidence]

/-- Clipping always lands in the unit interval. -/
theorem clipConf_mem (q : Rat) : 0 ≤ clipConf q ∧ clipConf q ≤ 1 := by
  unfold clipConf
  refine ⟨le_max_left 0 _, max_le (by norm_num) (min_le_left 1 q)⟩

/-- Every coerced confidence field lies in the unit interval. -/
theorem jConf_mem (fs : List (String × JVal)) (k : String) :
    0 ≤ jConf fs k ∧ jConf fs k ≤ 1 := by
  unfold jConf
  split
  · exact clipConf_mem _
  · split
    · exact clipConf_mem _
    · exact fallbackConfidence_mem
  · exact fallbackConfidence_mem

/-- The sentiment payload produced by repair has confidence in `[0,1]`. -/
theorem repairSentiment_conf_mem (raw : String) :
    0 ≤ (repairSentiment raw).1.Confidence ∧ (repairSentiment raw).1.Confidence ≤ 1 := by
  unfold repairSentiment
  split
  · exact jConf_mem _ _
  · exact fallbackConfidence_mem

/-- The intent payload produced by repair has confidence in `[0,1]`. -/
theorem repairIntent_conf_mem (raw : String) :
    0 ≤ (repairIntent raw).1.Confidence ∧ (repairIntent raw).1.Confidence ≤ 1 := by
  unfold repairIntent
  split
  · exact jConf_mem _ _
  · exact fallbackConfidence_mem

/-- The settled sentiment payload has confidence in `[0,1]`. -/
theorem runSentiment_conf_mem (env : Env) (t : String) :
    0 ≤ ((runSentiment env t).payloadOr (fallbackSentiment t)).Confidence ∧
      ((runSentiment env t).payloadOr (fallbackSentiment t)).Confidence ≤ 1 := by
  unfold runSentiment
  cases henv : env.sentimentRaw with
  | none =>
      dsimp only [ExtractionResult.payloadOr]
      exact fallbackConfidence_mem
  | some raw =>
      have h := repairSentiment_conf_mem raw
      rcases hr : repairSentiment raw with ⟨p, b⟩
      rw [hr] at h
      dsimp only
      rw [hr]
      cases b
      · dsimp only [ExtractionResult.payloadOr]
        exact fallbackConfidence_mem
      · dsimp only [ExtractionResult.payloadOr]
        exact h

/-- The settled intent payload has confidence in `[0,1]`. -/
theorem runIntent_conf_mem (env : Env) (t : String) :
    0 ≤ ((runIntent env t).payloadOr (fallbackIntent t)).Confidence ∧
      ((runIntent env t).payloadOr (fallbackIntent t)).Confidence ≤ 1 := by
  unfold runIntent
  cases henv : env.intentRaw with
  | none =>
      dsimp only [ExtractionResult.payloadOr]
      exact fallbackConfidence_mem
  | some raw =>
      have h := repairIntent_conf_mem raw
      rcases hr : repairIntent raw with ⟨p, b⟩
      rw [hr] at h
      dsimp only
      rw [hr]
      cases b
      · dsimp only [ExtractionResult.payloadOr]
        exact fallbackConfidence_mem
      · dsimp only [ExtractionResult.payloadOr]
        exact h

/-- C5: in every `AnalysisResponse` the sentiment and intent confidences lie
in the closed interval `[0,1]`, and the repair layer's clipping function maps
every coerced value into that interval. -/
theorem confidence_in_unit_interval (t : String) (pn : Option String) (env : Env) (q : Rat) :
    (0 ≤ (analyze t pn env).sentiment.Confidence ∧
      (analyze t pn env).sentiment.Confidence ≤ 1) ∧
    (0 ≤ (analyze t pn env).intent.Confidence ∧
      (analyze t pn env).intent.Confidence ≤ 1) ∧
    (0 ≤ clipConf q ∧ clipConf q ≤ 1) :=
  ⟨runSentiment_conf_mem env t, runIntent_conf_mem env t, clipConf_mem q⟩

/-! ### Scheduler lemmas -/

/-- Splitting a snoc against an append-cons decomposition: the distinguished
element is either the appended one or lies inside the original list. -/
theorem snoc_eq_append_cons {α : Type} (tr : List α) (e : α) (pre post : List α) (x : α)
    (h : tr ++ [e] = pre ++ x :: post) :
    (post = [] ∧ pre = tr ∧ x = e) ∨
      (∃ post2, post = post2 ++ [e] ∧ tr = pre ++ x :: post2) := by
  rcases List.eq_nil_or_concat post with hp | ⟨post2, b, hp⟩
  · subst hp
    have h2 := List.append_inj' h (by simp)
    exact Or.inl ⟨rfl, h2.1.symm, by simpa using h2.2.symm⟩
  · subst hp
    right
    rw [List.concat_eq_append] at h
    rw [List.concat_eq_append]
    rw [show pre ++ x :: (post2 ++ [b]) = (pre ++ x :: post2) ++ [b] by simp] at h
    have h2 := List.append_inj' h (by simp)
    refine ⟨post2, ?_, h2.1⟩
    have hb : e = b := by simpa using h2.2
    rw [hb]

/-- In any execution, a task marked settled has a settle event in the trace. -/
theorem exec_settled_mem {tr : List Event} {s : SchedState} (h : Exec tr s) :
    ∀ t, s.settled t = true → Event.settle t ∈ tr := by
  induction h with
  | nil => intro t ht; simp [initState] at ht
  | stepStart hexec hcan ih =>
      intro t ht
      exact List.mem_append_left _ (ih t ht)
  | stepSettle hexec hcan ih =>
      intro t ht
      rename_i tr0 s0 u
      simp only [doSettle] at ht
      by_cases htu : t = u
      · subst htu
        simp
      · rw [if_neg htu] at ht
        exact List.mem_append_left _ (ih t ht)

/-- In any execution, every issuance of the soap task is preceded by a
settlement of the summary task. -/
theorem exec_soap_after_summary {tr : List Event} {s : SchedState} (h : Exec tr s) :
    ∀ pre post, tr = pre ++ Event.start OrchTask.soap :: post →
      Event.settle OrchTask.summary ∈ pre := by
  induction h with
  | nil =>
      intro pre post hsplit
      simp at hsplit
  | stepStart hexec hcan ih =>
      intro pre post hsplit
      rename_i tr0 s0 u
      rcases snoc_eq_append_cons tr0 (Event.start u) pre post (Event.start OrchTask.soap)
          hsplit with ⟨hpost, hpre, hx⟩ | ⟨post2, hpost, htr⟩
      · have hu : u = OrchTask.soap := by
          cases hx
          rfl
        subst hu
        subst hpre
        have hdep : s0.settled OrchTask.summary = true := by
          simp only [canStart, orchDeps, Bool.and_eq_true, List.all_cons, List.all_nil] at hcan
          simpa using hcan.2
        exact exec_settled_mem hexec OrchTask.summary hdep
      · exact ih pre post2 htr
  | stepSettle hexec hcan ih =>
      intro pre post hsplit
      rename_i tr0 s0 u
      rcases snoc_eq_append_cons tr0 (Event.settle u) pre post (Event.start OrchTask.soap)
          hsplit with ⟨hpost, hpre, hx⟩ | ⟨post2, hpost, htr⟩
      · exact absurd hx (by simp)
      · exact ih pre post2 htr

/-- `traceA` is a valid execution. -/
theorem traceA_exec : ∃ s, Exec traceA s :=
  ⟨_, Exec.stepSettle (Exec.stepStart (Exec.stepSettle (Exec.stepSettle (Exec.stepSettle
      (Exec.stepSettle (Exec.stepStart (Exec.stepStart (Exec.stepStart (Exec.stepStart
        Exec.nil (by decide)) (by decide)) (by decide)) (by decide)) (by decide))
      (by decide)) (by decide)) (by decide)) (by decide)) (by decide)⟩

/-- `traceB` is a valid execution. -/
theorem traceB_exec : ∃ s, Exec traceB s :=
  ⟨_, Exec.stepSettle (Exec.stepStart (Exec.stepSettle (Exec.stepSettle (Exec.stepSettle
      (Exec.stepSettle (Exec.stepStart (Exec.stepStart (Exec.stepStart (Exec.stepStart
        Exec.nil (by decide)) (by decide)) (by decide)) (by decide)) (by decide))
      (by decide)) (by decide)) (by decide)) (by decide)) (by decide)⟩

/-- C3: in every execution of the orchestrator's task graph, the soap task is
issued only after the summary task has settled; and no other ordering between
the summary, sentiment, intent and keyword tasks is required — both start and
settle orders of the independent tasks are realised both ways by the valid
executions `traceA` and `traceB`. -/
theorem soap_strictly_after_summary :
    (∀ (tr : List Event) (s : SchedState), Exec tr s →
      ∀ pre post, tr = pre ++ Event.start OrchTask.soap :: post →
        Event.settle OrchTask.summary ∈ pre) ∧
    (∃ s, Exec traceA s) ∧ (∃ s, Exec traceB s) ∧
    traceA.indexOf (Event.start OrchTask.summary) <
      traceA.indexOf (Event.start OrchTask.keywords) ∧
    traceB.indexOf (Event.start OrchTask.keywords) <
      traceB.indexOf (Event.start OrchTask.summary) ∧
    traceA.indexOf (Event.settle OrchTask.sentiment) <
      traceA.indexOf (Event.settle OrchTask.intent) ∧
    traceB.indexOf (Event.settle OrchTask.intent) <
      traceB.indexOf (Event.settle OrchTask.sentiment) :=
  ⟨fun _ _ h => exec_soap_after_summary h, traceA_exec, traceB_exec,
   by decide, by decide, by decide, by decide⟩

/-- Witness for C3: applying the ordering guarantee to the concrete valid
execution `traceA` locates a summary settlement before the soap start. -/
theorem soap_strictly_after_summary_witness :
    Event.settle OrchTask.summary ∈
      [Event.start OrchTask.summary, Event.start OrchTask.sentiment,
       Event.start OrchTask.intent, Event.start OrchTask.keywords,
       Event.settle OrchTask.summary, Event.settle OrchTask.sentiment,
       Event.settle OrchTask.intent, Event.settle OrchTask.keywords] :=
  soap_strictly_after_summary.2.1.elim
    (fun s hs => soap_strictly_after_summary.1 traceA s hs
      [Event.start OrchTask.summary, Event.start OrchTask.sentiment,
       Event.start OrchTask.intent, Event.start OrchTask.keywords,
       Event.settle OrchTask.summary, Event.settle OrchTask.sentiment,
       Event.settle OrchTask.intent, Event.settle OrchTask.keywords]
      [Event.settle OrchTask.soap] rfl)

/-- In any execution each task settles at most once, and exactly once when
the final state marks it settled. -/
theorem exec_settle_count {tr : List Event} {s : SchedState} (h : Exec tr s) :
    ∀ t, tr.count (Event.settle t) = (if s.settled t then 1 else 0) := by
  induction h with
  | nil => intro t; simp [initState]
  | stepStart hexec hcan ih =>
      intro t
      rename_i tr0 s0 u
      simp only [doStart]
      rw [List.count_append]
      simp [ih t]
  | stepSettle hexec hcan ih =>
      intro t
      rename_i tr0 s0 u
      simp only [doSettle]
      rw [List.count_append]
      by_cases htu : t = u
      · subst htu
        have hnot : s0.settled t = false := by
          simp only [canSettle, Bool.and_eq_true, Bool.not_eq_true'] at hcan
          exact hcan.2
        simp [ih t, hnot]
      · have : (Event.settle t == Event.settle u) = false := by
          simp [htu]
        simp [ih t, htu, Ne.symm htu, this]

/-- C8: each of the four extraction tasks yields exactly one tagged
`ExtractionResult` — `Success`, `FallbackUsed` or `Failed` — per request: the
run functions are total with a three-constructor codomain, and in every
scheduler execution a task settles at most once, exactly once when it has
settled in the final state. -/
theorem one_result_per_task (env : Env) (t : String) (ctx : Summary) :
    ((∃ p, runSummary env = ExtractionResult.Success p) ∨
      (∃ p r, runSummary env = ExtractionResult.FallbackUsed p r) ∨
      (∃ r, runSummary env = ExtractionResult.Failed r)) ∧
    ((∃ p, runSentiment env t = ExtractionResult.Success p) ∨
      (∃ p r, runSentiment env t = ExtractionResult.FallbackUsed p r) ∨
      (∃ r, runSentiment env t = ExtractionResult.Failed r)) ∧
    ((∃ p, runIntent env t = ExtractionResult.Success p) ∨
      (∃ p r, runIntent env t = ExtractionResult.FallbackUsed p r) ∨
      (∃ r, runIntent env t = ExtractionResult.Failed r)) ∧
    ((∃ p, runSoap env ctx = ExtractionResult.Success p) ∨
      (∃ p r, runSoap env ctx = ExtractionResult.FallbackUsed p r) ∨
      (∃ r, runSoap env ctx = ExtractionResult.Failed r)) ∧
    (∀ (tr : List Event) (s : SchedState), Exec tr s → ∀ task,
      tr.count (Event.settle task) = (if s.settled task then 1 else 0)) := by
  have tri : ∀ {α : Type} (x : ExtractionResult α),
      (∃ p, x = ExtractionResult.Success p) ∨
      (∃ p r, x = ExtractionResult.FallbackUsed p r) ∨
      (∃ r, x = ExtractionResult.Failed r) := by
    intro α x
    cases x with
    | Success p => exact Or.inl ⟨p, rfl⟩
    | FallbackUsed p r => exact Or.inr (Or.inl ⟨p, r, rfl⟩)
    | Failed r => exact Or.inr (Or.inr ⟨r, rfl⟩)
  exact ⟨tri _, tri _, tri _, tri _, fun _ _ h task => exec_settle_count h task⟩

/-- Witness for C8: the count guarantee applied to the concrete valid
execution `traceA`. -/
theorem one_result_per_task_witness :
    traceA.count (Event.settle OrchTask.summary) ≤ 1 := by
  refine traceA_exec.elim (fun s hs => ?_)
  have hc := (one_result_per_task failEnv "hi" sentinelSummary).2.2.2.2 traceA s hs
    OrchTask.summary
  rw [hc]
  split <;> simp

/-! ### Decimal literal round trip -/

/-- A digit character cannot equal any character that is not a digit. -/
theorem ne_of_isDigit_of_not {c d : Char} (hc : c.isDigit = true) (hd : d.isDigit = false) :
    c ≠ d := by
  intro h
  rw [h, hd] at hc
  exact Bool.noConfusion hc

/-- Digit characters are digits. -/
theorem digitChar_isDigit {d : Nat} (h : d < 10) : (digitChar d).isDigit = true := by
  interval_cases d <;> decide

/-- Code of a digit character. -/
theorem digitChar_toNat {d : Nat} (h : d < 10) : (digitChar d).toNat = 48 + d := by
  interval_cases d <;> decide

/-- All characters of a decimal digit string are digits. -/
theorem natDigitsStr_digits (n : Nat) : ∀ c ∈ natDigitsStr n, c.isDigit = true := by
  intro c hc
  simp only [natDigitsStr, List.mem_map, List.mem_reverse] at hc
  obtain ⟨d, hd, rfl⟩ := hc
  exact digitChar_isDigit (Nat.digits_lt_base (by norm_num) hd)

/-- Padding preserves digit-ness. -/
theorem padZeros_digits {l : List Char} (h : ∀ c ∈ l, c.isDigit = true) (k : Nat) :
    ∀ c ∈ padZeros l k, c.isDigit = true := by
  intro c hc
  simp only [padZeros, List.mem_append, List.mem_replicate] at hc
  rcases hc with ⟨_, rfl⟩ | hc
  · decide
  · exact h c hc

/-- Padded length. -/
theorem padZeros_length (l : List Char) (k : Nat) : k ≤ (padZeros l k).length := by
  simp only [padZeros, List.length_append, List.length_replicate]
  omega

/-- The stronger `headSafe` implies `headNoDigit`. -/
theorem headNoDigit_of_headSafe {r : List Char} (h : headSafe r = true) :
    headNoDigit r = true := by
  cases r with
  | nil => rfl
  | cons c t =>
      simp only [headSafe, Bool.and_eq_true] at h
      simp only [headNoDigit, h.1]

/-- The digit lexer splits a digit run from a non-digit continuation. -/
theorem lexDigits_append {l : List Char} (h : ∀ c ∈ l, c.isDigit = true) {r : List Char}
    (hr : headNoDigit r = true) : lexDigits (l ++ r) = (l, r) := by
  induction l with
  | nil =>
      cases r with
      | nil => rfl
      | cons c t =>
          simp only [headNoDigit, Bool.not_eq_true'] at hr
          simp [lexDigits, hr]
  | cons c t ih =>
      have hc : c.isDigit = true := h c (List.mem_cons_self c t)
      simp only [List.cons_append, lexDigits, hc, if_pos, List.append_eq]
      rw [ih (fun x hx => h x (List.mem_cons_of_mem c hx))]

/-- Folding digits from an arbitrary accumulator. -/
theorem digitsVal_foldl_acc (b : List Char) : ∀ acc : Nat,
    b.foldl (fun a c => 10 * a + (c.toNat - 48)) acc =
      acc * 10 ^ b.length + digitsVal b := by
  induction b with
  | nil => intro acc; simp [digitsVal]
  | cons c t ih =>
      intro acc
      simp only [List.foldl_cons, List.length_cons, digitsVal]
      rw [ih (10 * acc + (c.toNat - 48)), ih (10 * 0 + (c.toNat - 48))]
      ring

/-- Value of a concatenation of digit strings. -/
theorem digitsVal_append (a b : List Char) :
    digitsVal (a ++ b) = digitsVal a * 10 ^ b.length + digitsVal b := by
  unfold digitsVal
  rw [List.foldl_append]
  exact digitsVal_foldl_acc b _

/-- Leading zeros do not change the value. -/
theorem digitsVal_padZeros (l : List Char) (k : Nat) :
    digitsVal (padZeros l k) = digitsVal l := by
  unfold padZeros
  rw [digitsVal_append]
  have hz : ∀ m : Nat, digitsVal (List.replicate m (digitChar 0)) = 0 := by
    intro m
    induction m with
    | zero => rfl
    | succ m ih =>
        rw [List.replicate_succ]
        have hcons : digitsVal (digitChar 0 :: List.replicate m (digitChar 0)) =
            (10 * 0 + ((digitChar 0).toNat - 48)) *
                10 ^ (List.replicate m (digitChar 0)).length +
              digitsVal (List.replicate m (digitChar 0)) := by
          unfold digitsVal
          simp only [List.foldl_cons]
          rw [digitsVal_foldl_acc]
          rfl
        rw [hcons, ih]
        have h0 : (digitChar 0).toNat = 48 := by decide
        rw [h0]
        simp
  rw [hz]
  ring

/-- Digit-map folding agrees with plain digit folding. -/
theorem foldl_digit_eq : ∀ (L : List Nat), (∀ d ∈ L, d < 10) → ∀ acc : Nat,
    L.foldl (fun a d => 10 * a + ((digitChar d).toNat - 48)) acc =
      L.foldl (fun a d => 10 * a + d) acc := by
  intro L
  induction L with
  | nil => intro _ acc; rfl
  | cons d t ih =>
      intro h acc
      simp only [List.foldl_cons]
      rw [digitChar_toNat (h d (List.mem_cons_self d t))]
      have h48 : 48 + d - 48 = d := by omega
      rw [h48]
      exact ih (fun x hx => h x (List.mem_cons_of_mem d hx)) _

/-- Folding most-significant-first digits computes `Nat.ofDigits`. -/
theorem foldl_reverse_ofDigits (L : List Nat) :
    L.reverse.foldl (fun a d => 10 * a + d) 0 = Nat.ofDigits 10 L := by
  induction L with
  | nil => simp [Nat.ofDigits]
  | cons d t ih =>
      rw [List.reverse_cons, List.foldl_append, ih, Nat.ofDigits_cons]
      simp only [List.foldl_cons, List.foldl_nil]
      ring

/-- The digit string of `n` evaluates back to `n`. -/
theorem digitsVal_natDigitsStr (n : Nat) : digitsVal (natDigitsStr n) = n := by
  unfold digitsVal natDigitsStr
  rw [List.foldl_map]
  rw [foldl_digit_eq ((Nat.digits 10 n).reverse)
      (fun d hd => Nat.digits_lt_base (by norm_num) (List.mem_reverse.mp hd)) 0]
  rw [foldl_reverse_ofDigits, Nat.ofDigits_digits]

/-- Reading a quote-free string body back from its rendering. -/
theorem lexStr_append (s : List Char) (h : ∀ c ∈ s, c ≠ qMark) (rest : List Char) :
    lexStr (s ++ qMark :: rest) = some (s, rest) := by
  induction s with
  | nil => simp [lexStr]
  | cons c t ih =>
      have hc : c ≠ qMark := h c (List.mem_cons_self c t)
      simp only [List.cons_append, lexStr, hc, if_neg, not_false_iff, List.append_eq]
      rw [ih (fun x hx => h x (List.mem_cons_of_mem c hx))]

/-- Unfolding equation for `headNoDigit`. -/
theorem headNoDigit_cons (c : Char) (t : List Char) :
    headNoDigit (c :: t) = !c.isDigit := rfl

/-- Parsing an unsigned rendered literal recovers mantissa and exponent. -/
theorem parseUnsigned_render (n e : Nat) (rest : List Char) (hr : headSafe rest = true) :
    parseUnsigned (renderNumNat n e ++ rest) = some ((Int.ofNat n, e), rest) := by
  have hdig : ∀ c ∈ padZeros (natDigitsStr n) (e + 1), c.isDigit = true :=
    padZeros_digits (natDigitsStr_digits n) (e + 1)
  have hlen : e + 1 ≤ (padZeros (natDigitsStr n) (e + 1)).length := padZeros_length _ _
  have hval : digitsVal (padZeros (natDigitsStr n) (e + 1)) = n := by
    rw [digitsVal_padZeros, digitsVal_natDigitsStr]
  set ds := padZeros (natDigitsStr n) (e + 1) with hds_def
  by_cases he : e = 0
  · subst he
    have hrender : renderNumNat n 0 = ds := by
      simp [renderNumNat, hds_def]
    rw [hrender]
    unfold parseUnsigned
    rw [lexDigits_append hdig (headNoDigit_of_headSafe hr)]
    have hne : ds.isEmpty = false := by
      cases hcs : ds with
      | nil => rw [hcs] at hlen; simp at hlen
      | cons a b => rfl
    dsimp only
    rw [hne]
    cases rest with
    | nil => simp [hval]
    | cons c r2 =>
        simp only [headSafe, Bool.and_eq_true, Bool.not_eq_true'] at hr
        have hcd : ¬ (c = dotC) := by
          intro hcc
          have := hr.2
          rw [hcc] at this
          simp at this
        simp [hcd, hval]
  · have hrender : renderNumNat n e =
        ds.take (ds.length - e) ++ dotC :: ds.drop (ds.length - e) := by
      simp [renderNumNat, he, hds_def]
    set ip := ds.take (ds.length - e) with hip_def
    set fp := ds.drop (ds.length - e) with hfp_def
    have hip : ∀ c ∈ ip, c.isDigit = true := fun c hc => hdig c (List.mem_of_mem_take hc)
    have hfp : ∀ c ∈ fp, c.isDigit = true := fun c hc => hdig c (List.mem_of_mem_drop hc)
    have hiplen : 1 ≤ ip.length := by
      rw [hip_def, List.length_take]
      omega
    have hfplen : fp.length = e := by
      rw [hfp_def, List.length_drop]
      omega
    have hipfp : ip ++ fp = ds := List.take_append_drop _ _
    rw [hrender]
    have hassoc : (ip ++ dotC :: fp) ++ rest = ip ++ (dotC :: (fp ++ rest)) := by simp
    rw [hassoc]
    unfold parseUnsigned
    rw [lexDigits_append hip (by rw [headNoDigit_cons]; decide)]
    dsimp only
    have hipE : ip.isEmpty = false := by
      cases hcs : ip with
      | nil => rw [hcs] at hiplen; simp at hiplen
      | cons a b => rfl
    rw [hipE]
    simp only [Bool.false_eq_true, if_false, eq_self_iff_true, if_true]
    rw [lexDigits_append hfp (headNoDigit_of_headSafe hr)]
    dsimp only
    have hfpE : fp.isEmpty = false := by
      cases hcs : fp with
      | nil => rw [hcs] at hfplen; simp at hfplen; omega
      | cons a b => rfl
    rw [hfpE]
    simp only [Bool.false_eq_true, if_false]
    have hsum : digitsVal ip * 10 ^ fp.length + digitsVal fp = n := by
      rw [← digitsVal_append, hipfp, hval]
    rw [hsum, hfplen]

/-- The rendered unsigned literal is nonempty and starts with a digit. -/
theorem renderNumNat_head (n e : Nat) :
    ∃ c t, renderNumNat n e = c :: t ∧ c.isDigit = true := by
  have hdig : ∀ c ∈ padZeros (natDigitsStr n) (e + 1), c.isDigit = true :=
    padZeros_digits (natDigitsStr_digits n) (e + 1)
  have hlen : e + 1 ≤ (padZeros (natDigitsStr n) (e + 1)).length := padZeros_length _ _
  set ds := padZeros (natDigitsStr n) (e + 1) with hds_def
  by_cases he : e = 0
  · subst he
    have hrender : renderNumNat n 0 = ds := by simp [renderNumNat, hds_def]
    cases hcs : ds with
    | nil => rw [hcs] at hlen; simp at hlen
    | cons c t =>
        refine ⟨c, t, by rw [hrender, hcs], hdig c ?_⟩
        rw [hcs]
        exact List.mem_cons_self c t
  · have hrender : renderNumNat n e =
        ds.take (ds.length - e) ++ dotC :: ds.drop (ds.length - e) := by
      simp [renderNumNat, he, hds_def]
    have hiplen : 1 ≤ (ds.take (ds.length - e)).length := by
      rw [List.length_take]
      omega
    cases hcs : ds.take (ds.length - e) with
    | nil => rw [hcs] at hiplen; simp at hiplen
    | cons c t =>
        refine ⟨c, t ++ dotC :: ds.drop (ds.length - e), by rw [hrender, hcs]; simp, ?_⟩
        have : c ∈ ds.take (ds.length - e) := by
          rw [hcs]
          exact List.mem_cons_self c t
        exact hdig c (List.mem_of_mem_take this)

/-- Parsing a rendered signed literal recovers the number. -/
theorem parseNumber_render (m : Int) (e : Nat) (rest : List Char) (hr : headSafe rest = true) :
    parseNumber (renderNum m e ++ rest) = some (JVal.jnum m e, rest) := by
  by_cases hm : m < 0
  · simp only [renderNum, if_pos hm, List.cons_append, List.nil_append]
    unfold parseNumber
    simp only [eq_self_iff_true, if_true]
    rw [parseUnsigned_render m.natAbs e rest hr]
    dsimp only
    have hneg : -(Int.ofNat m.natAbs) = m := by
      have h1 : Int.ofNat m.natAbs = ((m.natAbs : ℕ) : ℤ) := rfl
      rw [h1]
      omega
    rw [hneg]
  · obtain ⟨c, t, hct, hcd⟩ := renderNumNat_head m.natAbs e
    simp only [renderNum, if_neg hm, List.nil_append]
    rw [hct]
    simp only [List.cons_append]
    unfold parseNumber
    dsimp only
    have hcd2 : ¬ (c = dashC) := ne_of_isDigit_of_not hcd (by decide)
    rw [if_neg hcd2]
    rw [show c :: (t ++ rest) = (c :: t) ++ rest from rfl]
    rw [← hct, parseUnsigned_render m.natAbs e rest hr]
    dsimp only
    have hpos : Int.ofNat m.natAbs = m := by
      have h1 : Int.ofNat m.natAbs = ((m.natAbs : ℕ) : ℤ) := rfl
      rw [h1]
      omega
    rw [hpos]

/-! ### Render shapes and sizes -/

/-- A rendered value starts with a quote, an opening brace/bracket, a minus
sign or a digit. -/
theorem renderVal_head (v : JVal) :
    ∃ c t, renderVal v = c :: t ∧
      (c = qMark ∨ c = lBrace ∨ c = lBrack ∨ c = dashC ∨ c.isDigit = true) := by
  cases v with
  | jstr s => exact ⟨qMark, s.data ++ [qMark], by simp [renderVal], Or.inl rfl⟩
  | jnum m e =>
      by_cases hm : m < 0
      · refine ⟨dashC, renderNumNat m.natAbs e, ?_, Or.inr (Or.inr (Or.inr (Or.inl rfl)))⟩
        simp [renderVal, renderNum, hm]
      · obtain ⟨c, t, hct, hcd⟩ := renderNumNat_head m.natAbs e
        refine ⟨c, t, ?_, Or.inr (Or.inr (Or.inr (Or.inr hcd)))⟩
        simp [renderVal, renderNum, hm, hct]
  | jarr xs =>
      exact ⟨lBrack, renderItems xs ++ [rBrack], by simp [renderVal], Or.inr (Or.inr (Or.inl rfl))⟩
  | jobj fs =>
      exact ⟨lBrace, renderFields fs ++ [rBrace], by simp [renderVal], Or.inr (Or.inl rfl)⟩

/-- A rendered value never starts with a closing brace or bracket. -/
theorem renderVal_head_ne (v : JVal) :
    ∃ c t, renderVal v = c :: t ∧ ¬(c = rBrack) ∧ ¬(c = rBrace) := by
  obtain ⟨c, t, h, hc⟩ := renderVal_head v
  refine ⟨c, t, h, ?_, ?_⟩ <;>
    rcases hc with rfl | rfl | rfl | rfl | hd
  · decide
  · decide
  · decide
  · decide
  · exact ne_of_isDigit_of_not hd (by decide)
  · decide
  · decide
  · decide
  · decide
  · exact ne_of_isDigit_of_not hd (by decide)

/-- Every value has positive size. -/
theorem sizeV_pos (v : JVal) : 1 ≤ sizeV v := by
  cases v <;> simp [sizeV]

/-- Nonempty item lists have positive size. -/
theorem sizeL_pos (xs : List JVal) (h : xs ≠ []) : 1 ≤ sizeL xs := by
  cases xs with
  | nil => exact absurd rfl h
  | cons x t => simp [sizeL]; omega

/-- Nonempty member lists have positive size. -/
theorem sizeF_pos (fs : List (String × JVal)) (h : fs ≠ []) : 1 ≤ sizeF fs := by
  cases fs with
  | nil => exact absurd rfl h
  | cons p t => simp [sizeF]; omega

/-- The rendering of a value is at least as long as its size (so the input
length is always enough parser fuel). -/
theorem size_le_renderLen : ∀ n : Nat,
    (∀ v, sizeV v ≤ n → sizeV v ≤ (renderVal v).length) ∧
    (∀ xs, sizeL xs ≤ n → sizeL xs ≤ (renderItems xs).length + 1) ∧
    (∀ fs, sizeF fs ≤ n → sizeF fs ≤ (renderFields fs).length + 1) := by
  intro n
  induction n with
  | zero =>
      refine ⟨fun v hv => ?_, fun xs hxs => ?_, fun fs hfs => ?_⟩
      · have := sizeV_pos v; omega
      · cases xs with
        | nil => simp [sizeL]
        | cons x t => have := sizeL_pos (x :: t) (by simp); omega
      · cases fs with
        | nil => simp [sizeF]
        | cons p t => have := sizeF_pos (p :: t) (by simp); omega
  | succ f ih =>
      refine ⟨fun v hv => ?_, fun xs hxs => ?_, fun fs hfs => ?_⟩
      · cases v with
        | jstr s => simp [sizeV, renderVal]
        | jnum m e =>
            obtain ⟨c, t, hct, _⟩ := renderVal_head (JVal.jnum m e)
            rw [hct]
            simp [sizeV]
        | jarr xs =>
            have hx : sizeL xs ≤ f := by
              simp only [sizeV] at hv
              omega
            have := ih.2.1 xs hx
            simp only [sizeV, renderVal, List.length_cons, List.length_append]
            simp
            omega
        | jobj fs =>
            have hx : sizeF fs ≤ f := by
              simp only [sizeV] at hv
              omega
            have := ih.2.2 fs hx
            simp only [sizeV, renderVal, List.length_cons, List.length_append]
            simp
            omega
      · cases xs with
        | nil => simp [sizeL]
        | cons x t =>
            have hvx : sizeV x ≤ f := by
              simp only [sizeL] at hxs
              have := sizeL_pos (x :: t)
              simp only [sizeL] at *
              omega
            have h1 := ih.1 x hvx
            cases t with
            | nil =>
                simp only [sizeL, renderItems]
                omega
            | cons y t2 =>
                have hvt : sizeL (y :: t2) ≤ f := by
                  simp only [sizeL] at hxs ⊢
                  omega
                have h2 := ih.2.1 (y :: t2) hvt
                simp only [sizeL, renderItems, List.length_append, List.length_cons] at *
                omega
      · cases fs with
        | nil => simp [sizeF]
        | cons p t =>
            have hvx : sizeV p.2 ≤ f := by
              simp only [sizeF] at hfs
              omega
            have h1 := ih.1 p.2 hvx
            cases t with
            | nil =>
                rcases p with ⟨k, v⟩
                simp only [sizeF, renderFields, List.length_cons, List.length_append] at *
                omega
            | cons p2 t2 =>
                have hvt : sizeF (p2 :: t2) ≤ f := by
                  simp only [sizeF] at hfs ⊢
                  omega
                have h2 := ih.2.2 (p2 :: t2) hvt
                rcases p with ⟨k, v⟩
                simp only [sizeF, renderFields, List.length_append, List.length_cons] at *
                omega

/-- Quote-freeness of a well-formed string, elementwise. -/
theorem okStr_spec {s : String} (h : okStr s = true) : ∀ c ∈ s.data, c ≠ qMark := by
  intro c hc
  have := List.all_eq_true.mp h c hc
  simpa using this

/-- The rendered signed literal is nonempty and starts with a minus sign or a
digit. -/
theorem renderNum_head (m : Int) (e : Nat) :
    ∃ c t, renderNum m e = c :: t ∧ (c = dashC ∨ c.isDigit = true) := by
  by_cases hm : m < 0
  · exact ⟨dashC, renderNumNat m.natAbs e, by simp [renderNum, hm], Or.inl rfl⟩
  · obtain ⟨c, t, hct, hcd⟩ := renderNumNat_head m.natAbs e
    exact ⟨c, t, by simp [renderNum, hm, hct], Or.inr hcd⟩

/-- The nonempty rendering of object members starts with a quote. -/
theorem renderFields_head (p : String × JVal) (t : List (String × JVal)) :
    ∃ u, renderFields (p :: t) = qMark :: u := by
  rcases p with ⟨k, v⟩
  cases t with
  | nil => exact ⟨k.data ++ qMark :: colonC :: renderVal v, by simp [renderFields]⟩
  | cons p2 t2 =>
      exact ⟨k.data ++ qMark :: colonC :: renderVal v ++ commaC :: renderFields (p2 :: t2),
        by simp [renderFields]⟩

/-- The rendering of a nonempty item list starts with its first value's
rendering. -/
theorem renderItems_decomp (x : JVal) (t : List JVal) :
    ∃ u, renderItems (x :: t) = renderVal x ++ u := by
  cases t with
  | nil => exact ⟨[], by simp [renderItems]⟩
  | cons y t2 => exact ⟨commaC :: renderItems (y :: t2), by simp [renderItems]⟩

/-- Round trip of the JSON grammar: parsing a rendered well-formed value (or
item/member list) with enough fuel recovers it exactly and leaves the
continuation untouched. -/
theorem parse_render_main : ∀ fuel : Nat,
    (∀ v rest, wfV v = true → sizeV v ≤ fuel → headSafe rest = true →
      parseVal fuel (renderVal v ++ rest) = some (v, rest)) ∧
    (∀ xs rest, wfL xs = true → xs ≠ [] → sizeL xs ≤ fuel →
      parseItems fuel (renderItems xs ++ rBrack :: rest) = some (xs, rest)) ∧
    (∀ fs rest, wfF fs = true → fs ≠ [] → sizeF fs ≤ fuel →
      parseFields fuel (renderFields fs ++ rBrace :: rest) = some (fs, rest)) := by
  intro fuel
  induction fuel with
  | zero =>
      refine ⟨fun v rest _ hv _ => ?_, fun xs rest _ hne hxs => ?_,
        fun fs rest _ hne hfs => ?_⟩
      · have := sizeV_pos v; omega
      · have := sizeL_pos xs hne; omega
      · have := sizeF_pos fs hne; omega
  | succ f ih =>
      refine ⟨fun v rest hwf hsz hrest => ?_, fun xs rest hwf hne hsz => ?_,
        fun fs rest hwf hne hsz => ?_⟩
      · cases v with
        | jstr s =>
            have hrv : renderVal (JVal.jstr s) = qMark :: (s.data ++ [qMark]) := by
              simp [renderVal]
            rw [hrv]
            rw [show (qMark :: (s.data ++ [qMark])) ++ rest =
              qMark :: (s.data ++ qMark :: rest) from by simp]
            simp only [parseVal, eq_self_iff_true, if_true]
            have hok : ∀ c ∈ s.data, c ≠ qMark := okStr_spec (by simpa [wfV] using hwf)
            rw [lexStr_append s.data hok rest]
        | jnum m e =>
            have hrv : renderVal (JVal.jnum m e) = renderNum m e := by simp [renderVal]
            obtain ⟨c, t, hct, hc⟩ := renderNum_head m e
            rw [hrv, hct]
            simp only [List.cons_append]
            simp only [parseVal]
            have h1 : ¬ (c = qMark) := by
              rcases hc with rfl | hd
              · decide
              · exact ne_of_isDigit_of_not hd (by decide)
            have h2 : ¬ (c = lBrace) := by
              rcases hc with rfl | hd
              · decide
              · exact ne_of_isDigit_of_not hd (by decide)
            have h3 : ¬ (c = lBrack) := by
              rcases hc with rfl | hd
              · decide
              · exact ne_of_isDigit_of_not hd (by decide)
            rw [if_neg h1, if_neg h2, if_neg h3]
            rw [show c :: (t ++ rest) = (c :: t) ++ rest from rfl, ← hct]
            exact parseNumber_render m e rest hrest
        | jarr xs =>
            have hrv : renderVal (JVal.jarr xs) = lBrack :: (renderItems xs ++ [rBrack]) := by
              simp [renderVal]
            rw [hrv]
            rw [show (lBrack :: (renderItems xs ++ [rBrack])) ++ rest =
              lBrack :: (renderItems xs ++ rBrack :: rest) from by simp]
            simp only [parseVal]
            rw [if_neg (by decide : ¬(lBrack = qMark)),
              if_neg (by decide : ¬(lBrack = lBrace))]
            simp only [eq_self_iff_true, if_true]
            cases xs with
            | nil =>
                simp only [renderItems, List.nil_append]
                simp
            | cons x t =>
                obtain ⟨c, w, hcw, hc1, hc2⟩ := renderVal_head_ne x
                obtain ⟨u, hu⟩ := renderItems_decomp x t
                rw [hu, hcw]
                simp only [List.cons_append, List.append_assoc]
                rw [if_neg hc1]
                rw [show c :: (w ++ (u ++ rBrack :: rest)) =
                  ((c :: w) ++ u) ++ rBrack :: rest from by simp, ← hcw, ← hu]
                have hwl : wfL (x :: t) = true := by simpa [wfV] using hwf
                have hsl : sizeL (x :: t) ≤ f := by
                  simp only [sizeV] at hsz
                  omega
                rw [ih.2.1 (x :: t) rest hwl (by simp) hsl]
        | jobj fs =>
            have hrv : renderVal (JVal.jobj fs) = lBrace :: (renderFields fs ++ [rBrace]) := by
              simp [renderVal]
            rw [hrv]
            rw [show (lBrace :: (renderFields fs ++ [rBrace])) ++ rest =
              lBrace :: (renderFields fs ++ rBrace :: rest) from by simp]
            simp only [parseVal]
            rw [if_neg (by decide : ¬(lBrace = qMark))]
            simp only [eq_self_iff_true, if_true]
            cases fs with
            | nil =>
                simp only [renderFields, List.nil_append]
                simp
            | cons p t =>
                obtain ⟨u, hu⟩ := renderFields_head p t
                rw [hu]
                simp only [List.cons_append]
                rw [if_neg (by decide : ¬(qMark = rBrace))]
                rw [show qMark :: (u ++ rBrace :: rest) =
                  (qMark :: u) ++ rBrace :: rest from rfl, ← hu]
                have hwl : wfF (p :: t) = true := by simpa [wfV] using hwf
                have hsl : sizeF (p :: t) ≤ f := by
                  simp only [sizeV] at hsz
                  omega
                rw [ih.2.2 (p :: t) rest hwl (by simp) hsl]
      · cases xs with
        | nil => exact absurd rfl hne
        | cons x t =>
            have hwx : wfV x = true := by
              simp only [wfL, Bool.and_eq_true] at hwf
              exact hwf.1
            have hwt : wfL t = true := by
              simp only [wfL, Bool.and_eq_true] at hwf
              exact hwf.2
            have hsx : sizeV x ≤ f := by
              simp only [sizeL] at hsz
              omega
            simp only [parseItems]
            cases t with
            | nil =>
                rw [show renderItems [x] = renderVal x from by simp [renderItems]]
                rw [ih.1 x (rBrack :: rest) hwx hsx (by rfl)]
                dsimp only
                rw [if_neg (by decide : ¬(rBrack = commaC)), if_pos rfl]
            | cons y t2 =>
                rw [show renderItems (x :: y :: t2) =
                  renderVal x ++ commaC :: renderItems (y :: t2) from by simp [renderItems]]
                rw [show (renderVal x ++ commaC :: renderItems (y :: t2)) ++ rBrack :: rest =
                  renderVal x ++ (commaC :: (renderItems (y :: t2) ++ rBrack :: rest))
                  from by simp]
                rw [ih.1 x _ hwx hsx (by rfl)]
                dsimp only
                rw [if_pos rfl]
                have hst : sizeL (y :: t2) ≤ f := by
                  simp only [sizeL] at hsz ⊢
                  omega
                rw [ih.2.1 (y :: t2) rest hwt (by simp) hst]
      · cases fs with
        | nil => exact absurd rfl hne
        | cons p t =>
            rcases p with ⟨k, v⟩
            have hwk : okStr k = true := by
              simp only [wfF, Bool.and_eq_true] at hwf
              exact hwf.1.1
            have hwv : wfV v = true := by
              simp only [wfF, Bool.and_eq_true] at hwf
              exact hwf.1.2
            have hwt : wfF t = true := by
              simp only [wfF, Bool.and_eq_true] at hwf
              exact hwf.2
            have hsv : sizeV v ≤ f := by
              simp only [sizeF] at hsz
              omega
            simp only [parseFields]
            cases t with
            | nil =>
                rw [show renderFields [(k, v)] =
                  qMark :: k.data ++ qMark :: colonC :: renderVal v from by simp [renderFields]]
                rw [show (qMark :: k.data ++ qMark :: colonC :: renderVal v) ++ rBrace :: rest =
                  qMark :: (k.data ++ qMark :: (colonC :: (renderVal v ++ rBrace :: rest)))
                  from by simp]
                dsimp only
                rw [if_pos rfl]
                rw [lexStr_append k.data (okStr_spec hwk) _]
                dsimp only
                rw [if_pos rfl]
                rw [ih.1 v (rBrace :: rest) hwv hsv (by rfl)]
                dsimp only
                rw [if_neg (by decide : ¬(rBrace = commaC)), if_pos rfl]
            | cons p2 t2 =>
                rw [show renderFields ((k, v) :: p2 :: t2) =
                  (qMark :: k.data ++ qMark :: colonC :: renderVal v) ++
                    commaC :: renderFields (p2 :: t2) from by simp [renderFields]]
                rw [show ((qMark :: k.data ++ qMark :: colonC :: renderVal v) ++
                    commaC :: renderFields (p2 :: t2)) ++ rBrace :: rest =
                  qMark :: (k.data ++ qMark ::
                    (colonC :: (renderVal v ++
                      commaC :: (renderFields (p2 :: t2) ++ rBrace :: rest))))
                  from by simp]
                dsimp only
                rw [if_pos rfl]
                rw [lexStr_append k.data (okStr_spec hwk) _]
                dsimp only
                rw [if_pos rfl]
                rw [ih.1 v _ hwv hsv (by rfl)]
                dsimp only
                rw [if_pos rfl]
                have hst : sizeF (p2 :: t2) ≤ f := by
                  simp only [sizeF] at hsz ⊢
                  omega
                rw [ih.2.2 (p2 :: t2) rest hwt (by simp) hst]

/-! ### Repair round trip -/

/-- Locating the payload skips a brace-free wrapper and parses the rendered
value back, discarding trailing commentary. -/
theorem locateParse_render (v : JVal) (pre post : List Char)
    (hwf : wfV v = true)
    (hpre : ∀ c ∈ pre, ¬(c = lBrace) ∧ ¬(c = lBrack))
    (hpost : headSafe post = true)
    (hv : ∃ c t, renderVal v = c :: t ∧ (c = lBrace ∨ c = lBrack)) :
    locateParse (String.mk (pre ++ renderVal v ++ post)) = some v := by
  obtain ⟨c0, t0, hct, hc0⟩ := hv
  unfold locateParse
  have hdrop : (pre ++ renderVal v ++ post).dropWhile
      (fun c => !(c = lBrace || c = lBrack)) = renderVal v ++ post := by
    rw [show pre ++ renderVal v ++ post = pre ++ (renderVal v ++ post) from by simp]
    induction pre with
    | nil =>
        rw [List.nil_append, hct]
        have hfalse : (!(decide (c0 = lBrace) || decide (c0 = lBrack))) = false := by
          rcases hc0 with rfl | rfl <;> simp
        simp only [List.dropWhile, List.cons_append]
        rw [hfalse]
        rfl
    | cons p pre2 ih =>
        have hp := hpre p (List.mem_cons_self p pre2)
        have htrue : (!(decide (p = lBrace) || decide (p = lBrack))) = true := by
          simp [hp.1, hp.2]
        simp only [List.cons_append, List.dropWhile]
        rw [htrue]
        exact ih (fun c hc => hpre c (List.mem_cons_of_mem p hc))
  dsimp only
  rw [hdrop]
  have hsize : sizeV v ≤ (renderVal v ++ post).length + 1 := by
    have h1 := (size_le_renderLen (sizeV v)).1 v (le_refl _)
    simp only [List.length_append]
    omega
  rw [(parse_render_main ((renderVal v ++ post).length + 1)).1 v post hwf hsize hpost]

/-- Decoding a rendered string list. -/
theorem filterMap_jstr (l : List String) :
    l.filterMap
      ((fun v => match v with | JVal.jstr s => some s | _ => none) ∘ JVal.jstr) = l := by
  induction l with
  | nil => rfl
  | cons a t ih => simp [List.filterMap_cons, ih, Function.comp]

/-- Decoding a rendered sub-field mapping. -/
theorem filterMap_pair (l : List (String × String)) :
    l.filterMap
      ((fun q => match q.2 with | JVal.jstr s => some (q.1, s) | _ => none) ∘
        (fun q => (q.1, JVal.jstr q.2))) = l := by
  induction l with
  | nil => rfl
  | cons a t ih => simp [List.filterMap_cons, ih, Function.comp]

/-- Validating the encoded summary recovers it. -/
theorem validateSummary_encode (p : Summary) :
    validateSummary [("Patient_Name", JVal.jstr p.Patient_Name),
      ("Symptoms", JVal.jarr (p.Symptoms.map JVal.jstr)),
      ("Diagnosis", JVal.jstr p.Diagnosis),
      ("Treatment", JVal.jarr (p.Treatment.map JVal.jstr)),
      ("Current_Status", JVal.jstr p.Current_Status),
      ("Prognosis", JVal.jstr p.Prognosis)] = p := by
  simp [validateSummary, jStr, jStrList, jLookup, filterMap_jstr]

/-- Clipping is the identity on the unit interval. -/
theorem clipConf_id {q : Rat} (h0 : 0 ≤ q) (h1 : q ≤ 1) : clipConf q = q := by
  unfold clipConf
  rw [min_eq_right h1, max_eq_right h0]

/-- Validating the encoded sentiment recovers it when the confidence decimal
is in range. -/
theorem validateSentiment_encode (p : SentimentObj) (m : Int) (e : Nat)
    (hc : p.Confidence = decToRat m e) (h0 : 0 ≤ decToRat m e) (h1 : decToRat m e ≤ 1) :
    validateSentiment [("Sentiment", JVal.jstr p.Sentiment),
      ("Confidence", JVal.jnum m e)] = p := by
  simp [validateSentiment, jStr, jConf, jLookup, clipConf_id h0 h1]
  rw [← hc]

/-- Validating the encoded intent recovers it when the confidence decimal is
in range. -/
theorem validateIntent_encode (p : IntentObj) (m : Int) (e : Nat)
    (hc : p.Confidence = decToRat m e) (h0 : 0 ≤ decToRat m e) (h1 : decToRat m e ≤ 1) :
    validateIntent [("Intent", JVal.jstr p.Intent),
      ("Confidence", JVal.jnum m e)] = p := by
  simp [validateIntent, jStr, jConf, jLookup, clipConf_id h0 h1]
  rw [← hc]

/-- Validating the encoded SOAP note recovers it. -/
theorem validateSoap_encode (p : SoapNote) :
    validateSoap [("Subjective", encodeSection p.Subjective),
      ("Objective", encodeSection p.Objective),
      ("Assessment", encodeSection p.Assessment),
      ("Plan", encodeSection p.Plan)] = p := by
  simp [validateSoap, jMap, jLookup, encodeSection, filterMap_pair]

/-- A rendered object starts with an opening brace. -/
theorem renderVal_jobj_head (fs : List (String × JVal)) :
    ∃ c t, renderVal (JVal.jobj fs) = c :: t ∧ (c = lBrace ∨ c = lBrack) :=
  ⟨lBrace, renderFields fs ++ [rBrace], by simp [renderVal], Or.inl rfl⟩

/-- Repair round trip for the summary schema. -/
theorem repairSummary_roundtrip (p : Summary) (pre post : List Char)
    (hwf : wfV (encodeSummary p) = true)
    (hpre : ∀ c ∈ pre, ¬(c = lBrace) ∧ ¬(c = lBrack))
    (hpost : headSafe post = true) :
    repairSummary (String.mk (pre ++ renderVal (encodeSummary p) ++ post)) = (p, true) := by
  unfold repairSummary
  have hv : ∃ c t, renderVal (encodeSummary p) = c :: t ∧ (c = lBrace ∨ c = lBrack) :=
    renderVal_jobj_head _
  rw [locateParse_render (encodeSummary p) pre post hwf hpre hpost hv]
  dsimp only [encodeSummary]
  rw [validateSummary_encode p]

/-- Repair round trip for the sentiment schema. -/
theorem repairSentiment_roundtrip (p : SentimentObj) (m : Int) (e : Nat)
    (pre post : List Char)
    (hwf : wfV (encodeSentiment p m e) = true)
    (hc : p.Confidence = decToRat m e) (h0 : 0 ≤ decToRat m e) (h1 : decToRat m e ≤ 1)
    (hpre : ∀ c ∈ pre, ¬(c = lBrace) ∧ ¬(c = lBrack))
    (hpost : headSafe post = true) :
    repairSentiment (String.mk (pre ++ renderVal (encodeSentiment p m e) ++ post)) =
      (p, true) := by
  unfold repairSentiment
  have hv : ∃ c t, renderVal (encodeSentiment p m e) = c :: t ∧ (c = lBrace ∨ c = lBrack) :=
    renderVal_jobj_head _
  rw [locateParse_render (encodeSentiment p m e) pre post hwf hpre hpost hv]
  dsimp only [encodeSentiment]
  rw [validateSentiment_encode p m e hc h0 h1]

/-- Repair round trip for the intent schema. -/
theorem repairIntent_roundtrip (p : IntentObj) (m : Int) (e : Nat)
    (pre post : List Char)
    (hwf : wfV (encodeIntent p m e) = true)
    (hc : p.Confidence = decToRat m e) (h0 : 0 ≤ decToRat m e) (h1 : decToRat m e ≤ 1)
    (hpre : ∀ c ∈ pre, ¬(c = lBrace) ∧ ¬(c = lBrack))
    (hpost : headSafe post = true) :
    repairIntent (String.mk (pre ++ renderVal (encodeIntent p m e) ++ post)) =
      (p, true) := by
  unfold repairIntent
  have hv : ∃ c t, renderVal (encodeIntent p m e) = c :: t ∧ (c = lBrace ∨ c = lBrack) :=
    renderVal_jobj_head _
  rw [locateParse_render (encodeIntent p m e) pre post hwf hpre hpost hv]
  dsimp only [encodeIntent]
  rw [validateIntent_encode p m e hc h0 h1]

/-- Repair round trip for the SOAP-note schema. -/
theorem repairSoap_roundtrip (p : SoapNote) (pre post : List Char)
    (hwf : wfV (encodeSoap p) = true)
    (hpre : ∀ c ∈ pre, ¬(c = lBrace) ∧ ¬(c = lBrack))
    (hpost : headSafe post = true) :
    repairSoap (String.mk (pre ++ renderVal (encodeSoap p) ++ post)) = (p, true) := by
  unfold repairSoap
  have hv : ∃ c t, renderVal (encodeSoap p) = c :: t ∧ (c = lBrace ∨ c = lBrack) :=
    renderVal_jobj_head _
  rw [locateParse_render (encodeSoap p) pre post hwf hpre hpost hv]
  dsimp only [encodeSoap]
  rw [validateSoap_encode p]

/-- C6: for every well-formed schema payload of each of the four kinds,
serialising it as JSON, wrapping it in brace-free markdown code fences and
appending trailing commentary, then applying the repair layer, returns the
identical payload with `is_valid = true`.  Well-formedness means the payload's
strings are quote-free and — for the sentiment/intent kinds — the confidence
is a decimal `m / 10^e` lying in `[0,1]`. -/
theorem repair_layer_roundtrip
    (ps : Summary) (pse : SentimentObj) (pin : IntentObj) (pso : SoapNote)
    (m1 m2 : Int) (e1 e2 : Nat) (pre post : List Char)
    (hpre : ∀ c ∈ pre, ¬(c = lBrace) ∧ ¬(c = lBrack))
    (hpost : headSafe post = true) :
    (wfV (encodeSummary ps) = true →
      repairSummary (String.mk (pre ++ renderVal (encodeSummary ps) ++ post)) =
        (ps, true)) ∧
    (wfV (encodeSentiment pse m1 e1) = true → pse.Confidence = decToRat m1 e1 →
      0 ≤ decToRat m1 e1 → decToRat m1 e1 ≤ 1 →
      repairSentiment
          (String.mk (pre ++ renderVal (encodeSentiment pse m1 e1) ++ post)) =
        (pse, true)) ∧
    (wfV (encodeIntent pin m2 e2) = true → pin.Confidence = decToRat m2 e2 →
      0 ≤ decToRat m2 e2 → decToRat m2 e2 ≤ 1 →
      repairIntent
          (String.mk (pre ++ renderVal (encodeIntent pin m2 e2) ++ post)) =
        (pin, true)) ∧
    (wfV (encodeSoap pso) = true →
      repairSoap (String.mk (pre ++ renderVal (encodeSoap pso) ++ post)) =
        (pso, true)) :=
  ⟨fun hwf => repairSummary_roundtrip ps pre post hwf hpre hpost,
   fun hwf hc h0 h1 => repairSentiment_roundtrip pse m1 e1 pre post hwf hc h0 h1 hpre hpost,
   fun hwf hc h0 h1 => repairIntent_roundtrip pin m2 e2 pre post hwf hc h0 h1 hpre hpost,
   fun hwf => repairSoap_roundtrip pso pre post hwf hpre hpost⟩

/-- Witness for C6: the four round trips at concrete payloads (the README's
worked example), wrapped in concrete markdown fences and commentary. -/
theorem repair_layer_roundtrip_witness :
    repairSummary (String.mk ("```json\n".data ++
        renderVal (encodeSummary ⟨"Janet Jones", ["Neck pain", "Back pain"],
          "Whiplash injury", ["Physiotherapy"], "Improving",
          "Full recovery expected"⟩) ++ "\n``` Extracted as requested.".data)) =
      (⟨"Janet Jones", ["Neck pain", "Back pain"], "Whiplash injury",
        ["Physiotherapy"], "Improving", "Full recovery expected"⟩, true) ∧
    repairSentiment (String.mk ("```json\n".data ++
        renderVal (encodeSentiment ⟨"Reassured", decToRat 85 2⟩ 85 2) ++
        "\n``` Extracted as requested.".data)) =
      ((⟨"Reassured", decToRat 85 2⟩ : SentimentObj), true) ∧
    repairIntent (String.mk ("```json\n".data ++
        renderVal (encodeIntent ⟨"Reporting recovery status", decToRat 3 1⟩ 3 1) ++
        "\n``` Extracted as requested.".data)) =
      ((⟨"Reporting recovery status", decToRat 3 1⟩ : IntentObj), true) ∧
    repairSoap (String.mk ("```json\n".data ++
        renderVal (encodeSoap ⟨[("Chief_Complaint", "Neck and back pain")],
          [("Physical_Exam", "Full range of motion")],
          [("Diagnosis", "Whiplash injury")], [("Treatment", "Physiotherapy")]⟩) ++
        "\n``` Extracted as requested.".data)) =
      ((⟨[("Chief_Complaint", "Neck and back pain")],
         [("Physical_Exam", "Full range of motion")],
         [("Diagnosis", "Whiplash injury")], [("Treatment", "Physiotherapy")]⟩ : SoapNote),
       true) := by
  have h := repair_layer_roundtrip
    ⟨"Janet Jones", ["Neck pain", "Back pain"], "Whiplash injury",
      ["Physiotherapy"], "Improving", "Full recovery expected"⟩
    ⟨"Reassured", decToRat 85 2⟩ ⟨"Reporting recovery status", decToRat 3 1⟩
    ⟨[("Chief_Complaint", "Neck and back pain")],
      [("Physical_Exam", "Full range of motion")],
      [("Diagnosis", "Whiplash injury")], [("Treatment", "Physiotherapy")]⟩
    85 3 2 1 "```json\n".data "\n``` Extracted as requested.".data
    (by decide) (by decide)
  exact ⟨h.1 (by decide),
    h.2.1 (by decide) rfl (by norm_num [decToRat]) (by norm_num [decToRat]),
    h.2.2.1 (by decide) rfl (by norm_num [decToRat]) (by norm_num [decToRat]),
    h.2.2.2 (by decide)⟩
